import Mathlib

/-!
Verification development for the gstreamer_study tutorial repository.

The tutorial C files are thin clients of a media-pipeline runtime (graph of
nodes and ports, format negotiation, lifecycle state machine, control bus,
queue and tee nodes).  The runtime itself is not part of the repository
sources, so its behaviour is modelled here from the specification; the
time-management program (basic-tutorial-4.c) is embedded directly from its
source.  Field names and media-type tags are modelled as natural-number
atoms; scalar field values are rationals, covering both the integer and the
rational ranges of the specification.
-/

namespace GstCore

/-- Modelled from the spec: a field value of a format-descriptor record is a
fixed scalar, a closed range, or a list of alternatives (§3, Format
descriptor).  Scalars are rationals, covering integer and rational ranges. -/
inductive FieldValue where
  | scalar (v : ℚ)
  | range (lo hi : ℚ)
  | list (vs : List ℚ)
deriving DecidableEq

/-- Does a concrete scalar x satisfy a field constraint? -/
def memB : FieldValue → ℚ → Bool
  | .scalar a, x => decide (x = a)
  | .range lo hi, x => decide (lo ≤ x) && decide (x ≤ hi)
  | .list vs, x => decide (x ∈ vs)

@[simp] theorem memB_scalar {a x : ℚ} : memB (.scalar a) x = true ↔ x = a := by
  simp [memB]

@[simp] theorem memB_range {lo hi x : ℚ} :
    memB (.range lo hi) x = true ↔ lo ≤ x ∧ x ≤ hi := by
  simp [memB]

@[simp] theorem memB_list {vs : List ℚ} {x : ℚ} :
    memB (.list vs) x = true ↔ x ∈ vs := by
  simp [memB]

/-- Canonical sorted duplicate-free listing, used to keep list-valued field
intersections canonical so that intersection is commutative. -/
def csort {α : Type} [LinearOrder α] [DecidableEq α] (l : List α) : List α :=
  List.insertionSort (· ≤ ·) l.dedup

theorem csort_mem {α : Type} [LinearOrder α] [DecidableEq α] (l : List α) (x : α) :
    x ∈ csort l ↔ x ∈ l := by
  simp [csort]

theorem csort_nodup {α : Type} [LinearOrder α] [DecidableEq α] (l : List α) :
    (csort l).Nodup :=
  ((List.perm_insertionSort _ _).nodup_iff).mpr l.nodup_dedup

theorem csort_sorted_le {α : Type} [LinearOrder α] [DecidableEq α] (l : List α) :
    List.Sorted (· ≤ ·) (csort l) :=
  List.sorted_insertionSort _ _

theorem csort_sorted {α : Type} [LinearOrder α] [DecidableEq α] (l : List α) :
    List.Sorted (· < ·) (csort l) := by
  have h1 := csort_sorted_le l
  have h2 := csort_nodup l
  exact List.Pairwise.imp₂ (fun a b hle hne => lt_of_le_of_ne hle hne) h1 h2

theorem sorted_lt_eq_of_mem {α : Type} [LinearOrder α] {l m : List α}
    (hl : List.Sorted (· < ·) l) (hm : List.Sorted (· < ·) m)
    (h : ∀ x, x ∈ l ↔ x ∈ m) : l = m := by
  have hln : l.Nodup := hl.imp ne_of_lt
  have hmn : m.Nodup := hm.imp ne_of_lt
  have hperm : l.Perm m := (List.perm_ext_iff_of_nodup hln hmn).mpr h
  exact List.eq_of_perm_of_sorted hperm
    (hl.imp le_of_lt) (hm.imp le_of_lt)

theorem csort_eq_of_mem {α : Type} [LinearOrder α] [DecidableEq α] {l m : List α}
    (h : ∀ x, x ∈ l ↔ x ∈ m) : csort l = csort m :=
  sorted_lt_eq_of_mem (csort_sorted l) (csort_sorted m)
    (fun x => by rw [csort_mem, csort_mem]; exact h x)

/-- Canonicalise a list of alternatives into a field value: empty means the
empty constraint, a singleton collapses to a fixed scalar. -/
def normList (vs : List ℚ) : Option FieldValue :=
  match csort vs with
  | [] => none
  | [a] => some (.scalar a)
  | a :: b :: l => some (.list (a :: b :: l))

/-- Satisfaction lifted to a possibly-empty (none) field value. -/
def memO : Option FieldValue → ℚ → Bool
  | none, _ => false
  | some v, x => memB v x

@[simp] theorem memO_some {v : FieldValue} {x : ℚ} : memO (some v) x = memB v x := rfl

@[simp] theorem memO_none {x : ℚ} : memO none x = false := rfl

theorem memT_normList {vs : List ℚ} {x : ℚ} :
    memO (normList vs) x = true ↔ x ∈ vs := by
  have hmem := csort_mem vs x
  rcases h : csort vs with _ | ⟨a, _ | ⟨b, l⟩⟩ <;> rw [h] at hmem <;>
    simp [normList, h, ← hmem]

/-- Canonical-form predicate for field values produced by intersection:
a range is non-degenerate and a list is sorted with at least two entries. -/
def CanonF : FieldValue → Prop
  | .scalar _ => True
  | .range lo hi => lo < hi
  | .list vs => 2 ≤ vs.length ∧ List.Sorted (· < ·) vs

theorem canon_normList {vs : List ℚ} {c : FieldValue} (h : normList vs = some c) :
    CanonF c := by
  have hs := csort_sorted vs
  rcases hcs : csort vs with _ | ⟨a, _ | ⟨b, l⟩⟩ <;> rw [hcs] at hs <;>
    simp [normList, hcs] at h
  · rw [← h]; trivial
  · rw [← h]
    exact ⟨by simp, hs⟩

theorem canon_nonempty {c : FieldValue} (h : CanonF c) : ∃ x, memB c x = true := by
  cases c with
  | scalar a => exact ⟨a, by simp⟩
  | range lo hi => exact ⟨lo, by simp; exact le_of_lt h⟩
  | list vs =>
    rcases h with ⟨hlen, _⟩
    cases vs with
    | nil => simp at hlen
    | cons a l => exact ⟨a, by simp⟩

/-- Modelled from the spec: pointwise field intersection (§4.1):
fixed∩fixed is equality or empty, range∩range is the overlap, list∩list the
common elements, list∩scalar and list∩range reduce to membership.  `none`
is the empty intersection. -/
def fieldInter : FieldValue → FieldValue → Option FieldValue
  | .scalar a, .scalar b => if a = b then some (.scalar a) else none
  | .scalar a, .range lo hi => if lo ≤ a ∧ a ≤ hi then some (.scalar a) else none
  | .range lo hi, .scalar a => if lo ≤ a ∧ a ≤ hi then some (.scalar a) else none
  | .scalar a, .list vs => if a ∈ vs then some (.scalar a) else none
  | .list vs, .scalar a => if a ∈ vs then some (.scalar a) else none
  | .range lo1 hi1, .range lo2 hi2 =>
      if max lo1 lo2 < min hi1 hi2 then some (.range (max lo1 lo2) (min hi1 hi2))
      else if max lo1 lo2 = min hi1 hi2 then some (.scalar (max lo1 lo2))
      else none
  | .range lo hi, .list vs => normList (vs.filter fun v => decide (lo ≤ v) && decide (v ≤ hi))
  | .list vs, .range lo hi => normList (vs.filter fun v => decide (lo ≤ v) && decide (v ≤ hi))
  | .list vs, .list ws => normList (vs.filter fun v => decide (v ∈ ws))

theorem memT_fieldInter (a b : FieldValue) (x : ℚ) :
    memO (fieldInter a b) x = true ↔ (memB a x = true ∧ memB b x = true) := by
  cases a with
  | scalar va =>
    cases b with
    | scalar vb =>
      by_cases h : va = vb
      · subst h; simp [fieldInter]
      · simp only [fieldInter, if_neg h, memO_none, Bool.false_eq_true, false_iff,
          memB_scalar]
        rintro ⟨rfl, rfl⟩; exact h rfl
    | range lo hi =>
      by_cases h : lo ≤ va ∧ va ≤ hi
      · simp only [fieldInter, if_pos h, memO_some, memB_scalar, memB_range]
        constructor
        · rintro rfl; exact ⟨rfl, h⟩
        · rintro ⟨rfl, _⟩; rfl
      · simp only [fieldInter, if_neg h, memO_none, Bool.false_eq_true, false_iff,
          memB_scalar, memB_range]
        rintro ⟨rfl, hr⟩; exact h hr
    | list vs =>
      by_cases h : va ∈ vs
      · simp only [fieldInter, if_pos h, memO_some, memB_scalar, memB_list]
        constructor
        · rintro rfl; exact ⟨rfl, h⟩
        · rintro ⟨rfl, _⟩; rfl
      · simp only [fieldInter, if_neg h, memO_none, Bool.false_eq_true, false_iff,
          memB_scalar, memB_list]
        rintro ⟨rfl, hr⟩; exact h hr
  | range lo hi =>
    cases b with
    | scalar vb =>
      by_cases h : lo ≤ vb ∧ vb ≤ hi
      · simp only [fieldInter, if_pos h, memO_some, memB_scalar, memB_range]
        constructor
        · rintro rfl; exact ⟨h, rfl⟩
        · rintro ⟨_, rfl⟩; rfl
      · simp only [fieldInter, if_neg h, memO_none, Bool.false_eq_true, false_iff,
          memB_scalar, memB_range]
        rintro ⟨hr, rfl⟩; exact h hr
    | range lo2 hi2 =>
      rcases lt_trichotomy (max lo lo2) (min hi hi2) with h | h | h
      · simp only [fieldInter, if_pos h, memO_some, memB_range, max_le_iff, le_min_iff]
        tauto
      · have hnl : ¬ max lo lo2 < min hi hi2 := by rw [h]; exact lt_irrefl _
        rw [fieldInter, if_neg hnl, if_pos h]
        simp only [memO_some, memB_scalar, memB_range]
        constructor
        · rintro rfl
          refine ⟨⟨le_max_left _ _, h ▸ min_le_left _ _⟩,
                  le_max_right _ _, h ▸ min_le_right _ _⟩
        · rintro ⟨⟨h1, h2⟩, h3, h4⟩
          exact le_antisymm (h ▸ le_min h2 h4) (max_le h1 h3)
      · have h1 : ¬ max lo lo2 < min hi hi2 := not_lt_of_le (le_of_lt h)
        have h2 : ¬ max lo lo2 = min hi hi2 := ne_of_gt h
        rw [fieldInter, if_neg h1, if_neg h2]
        simp only [memO_none, Bool.false_eq_true, false_iff, memB_range]
        rintro ⟨⟨ha, hb⟩, hc, hd⟩
        exact absurd (le_trans (max_le ha hc) (le_min hb hd)) (not_le_of_lt h)
    | list vs =>
      rw [fieldInter, memT_normList]
      simp only [List.mem_filter, memB_list, memB_range, Bool.and_eq_true, decide_eq_true_eq]
      tauto
  | list vs =>
    cases b with
    | scalar vb =>
      by_cases h : vb ∈ vs
      · simp only [fieldInter, if_pos h, memO_some, memB_scalar, memB_list]
        constructor
        · rintro rfl; exact ⟨h, rfl⟩
        · rintro ⟨_, rfl⟩; rfl
      · simp only [fieldInter, if_neg h, memO_none, Bool.false_eq_true, false_iff,
          memB_scalar, memB_list]
        rintro ⟨hr, rfl⟩; exact h hr
    | range lo hi =>
      rw [fieldInter, memT_normList]
      simp only [List.mem_filter, memB_list, memB_range, Bool.and_eq_true, decide_eq_true_eq]
    | list ws =>
      rw [fieldInter, memT_normList]
      simp only [List.mem_filter, memB_list, decide_eq_true_eq]

theorem canon_out {a b : FieldValue} {c : FieldValue} (h : fieldInter a b = some c) :
    CanonF c := by
  cases a with
  | scalar va =>
    cases b with
    | scalar vb =>
      by_cases hc : va = vb <;> simp [fieldInter, hc] at h <;> try simp [← h, CanonF]
    | range lo hi =>
      by_cases hc : lo ≤ va ∧ va ≤ hi <;> simp [fieldInter, hc] at h <;> try simp [← h, CanonF]
    | list vs =>
      by_cases hc : va ∈ vs <;> simp [fieldInter, hc] at h <;> try simp [← h, CanonF]
  | range lo hi =>
    cases b with
    | scalar vb =>
      by_cases hc : lo ≤ vb ∧ vb ≤ hi <;> simp [fieldInter, hc] at h <;> try simp [← h, CanonF]
    | range lo2 hi2 =>
      by_cases h1 : max lo lo2 < min hi hi2
      · simp only [fieldInter, if_pos h1, Option.some.injEq] at h
        rw [← h]; exact h1
      · by_cases h2 : max lo lo2 = min hi hi2
        · simp only [fieldInter, if_neg h1, if_pos h2, Option.some.injEq] at h
          rw [← h]; trivial
        · simp only [fieldInter, if_neg h1, if_neg h2] at h
          exact Option.noConfusion h
    | list vs => exact canon_normList h
  | list vs =>
    cases b with
    | scalar vb =>
      by_cases hc : vb ∈ vs <;> simp [fieldInter, hc] at h <;> try simp [← h, CanonF]
    | range lo hi => exact canon_normList h
    | list ws => exact canon_normList h

theorem absurd_scalar_range {a lo hi : ℚ} (hlt : lo < hi)
    (h : ∀ x, memB (.scalar a) x = true ↔ memB (.range lo hi) x = true) : False := by
  have h1 : lo = a := by
    have := (h lo).mpr (by simp [le_of_lt hlt])
    simpa using this
  have h2 : hi = a := by
    have := (h hi).mpr (by simp [le_of_lt hlt])
    simpa using this
  rw [h1, h2] at hlt
  exact lt_irrefl _ hlt

theorem absurd_scalar_list {a : ℚ} {vs : List ℚ}
    (hlen : 2 ≤ vs.length) (hsort : List.Sorted (· < ·) vs)
    (h : ∀ x, memB (.scalar a) x = true ↔ memB (.list vs) x = true) : False := by
  cases vs with
  | nil => simp at hlen
  | cons v0 tl =>
    cases tl with
    | nil => simp at hlen
    | cons v1 tl2 =>
      have h0 : v0 = a := by
        have := (h v0).mpr (by simp)
        simpa using this
      have h1 : v1 = a := by
        have := (h v1).mpr (by simp)
        simpa using this
      have hlt : v0 < v1 := (List.sorted_cons.mp hsort).1 v1 (by simp)
      rw [h0, h1] at hlt
      exact lt_irrefl _ hlt

theorem absurd_range_list {lo hi : ℚ} {vs : List ℚ} (hlt : lo < hi)
    (hlen : 2 ≤ vs.length) (hsort : List.Sorted (· < ·) vs)
    (h : ∀ x, memB (.range lo hi) x = true ↔ memB (.list vs) x = true) : False := by
  cases vs with
  | nil => simp at hlen
  | cons v0 tl =>
    cases tl with
    | nil => simp at hlen
    | cons v1 tl2 =>
      have hv0 : lo ≤ v0 ∧ v0 ≤ hi := by
        have := (h v0).mpr (by simp)
        simpa using this
      have hv1 : lo ≤ v1 ∧ v1 ≤ hi := by
        have := (h v1).mpr (by simp)
        simpa using this
      have hlt01 : v0 < v1 := (List.sorted_cons.mp hsort).1 v1 (by simp)
      have hm1 : v0 < (v0 + v1) / 2 := by linarith
      have hm2 : (v0 + v1) / 2 < v1 := by linarith
      have hmem : (v0 + v1) / 2 ∈ v0 :: v1 :: tl2 := by
        have := (h ((v0 + v1) / 2)).mp
          (by simp only [memB_range]; constructor <;> linarith [hv0.1, hv1.2])
        simpa using this
      rcases List.mem_cons.mp hmem with he | hmem2
      · rw [he] at hm1; exact lt_irrefl _ hm1
      · rcases List.mem_cons.mp hmem2 with he | hmem3
        · rw [he] at hm2; exact lt_irrefl _ hm2
        · have : v1 < (v0 + v1) / 2 :=
            (List.sorted_cons.mp (List.sorted_cons.mp hsort).2).1 _ hmem3
          linarith

theorem canon_unique {c d : FieldValue} (hc : CanonF c) (hd : CanonF d)
    (h : ∀ x, memB c x = true ↔ memB d x = true) : c = d := by
  cases c with
  | scalar a =>
    cases d with
    | scalar b =>
      have := (h a).mp (by simp)
      simp at this
      rw [this]
    | range lo hi => exact absurd (absurd_scalar_range hd h) id
    | list vs => exact absurd (absurd_scalar_list hd.1 hd.2 h) id
  | range lo hi =>
    cases d with
    | scalar b => exact absurd (absurd_scalar_range hc (fun x => (h x).symm)) id
    | range lo2 hi2 =>
      have hle : lo ≤ hi := le_of_lt hc
      have hle2 : lo2 ≤ hi2 := le_of_lt hd
      have p1 : lo2 ≤ lo ∧ lo ≤ hi2 := by
        have := (h lo).mp (by simp [hle])
        simpa using this
      have p2 : lo ≤ lo2 ∧ lo2 ≤ hi := by
        have := (h lo2).mpr (by simp [hle2])
        simpa using this
      have p3 : lo2 ≤ hi ∧ hi ≤ hi2 := by
        have := (h hi).mp (by simp [hle])
        simpa using this
      have p4 : lo ≤ hi2 ∧ hi2 ≤ hi := by
        have := (h hi2).mpr (by simp [hle2])
        simpa using this
      rw [le_antisymm p2.1 p1.1, le_antisymm p3.2 p4.2]
    | list vs => exact absurd (absurd_range_list hc hd.1 hd.2 h) id
  | list vs =>
    cases d with
    | scalar b => exact absurd (absurd_scalar_list hc.1 hc.2 (fun x => (h x).symm)) id
    | range lo hi => exact absurd (absurd_range_list hd hc.1 hc.2 (fun x => (h x).symm)) id
    | list ws =>
      have : vs = ws := by
        apply sorted_lt_eq_of_mem hc.2 hd.2
        intro x
        have := h x
        simpa using this
      rw [this]

theorem fieldInter_comm (a b : FieldValue) : fieldInter a b = fieldInter b a := by
  cases hab : fieldInter a b with
  | none =>
    cases hba : fieldInter b a with
    | none => rfl
    | some c =>
      exfalso
      obtain ⟨x, hx⟩ := canon_nonempty (canon_out hba)
      have h1 := (memT_fieldInter b a x).mp (by rw [hba]; simpa)
      have h2 := (memT_fieldInter a b x).mpr ⟨h1.2, h1.1⟩
      rw [hab] at h2
      simp at h2
  | some c =>
    cases hba : fieldInter b a with
    | none =>
      exfalso
      obtain ⟨x, hx⟩ := canon_nonempty (canon_out hab)
      have h1 := (memT_fieldInter a b x).mp (by rw [hab]; simpa)
      have h2 := (memT_fieldInter b a x).mpr ⟨h1.2, h1.1⟩
      rw [hba] at h2
      simp at h2
    | some d =>
      congr 1
      apply canon_unique (canon_out hab) (canon_out hba)
      intro x
      have l1 : memO (fieldInter a b) x = true ↔
          (memB a x = true ∧ memB b x = true) := memT_fieldInter a b x
      have r1 : memO (fieldInter b a) x = true ↔
          (memB b x = true ∧ memB a x = true) := memT_fieldInter b a x
      rw [hab] at l1
      rw [hba] at r1
      simp only [memO_some] at l1 r1
      rw [l1, r1]
      exact and_comm

theorem memT_bind_right (o : Option FieldValue) (cv : FieldValue) (x : ℚ) :
    memO (o.bind (fun v => fieldInter v cv)) x = true ↔
    (memO o x = true ∧ memB cv x = true) := by
  cases o with
  | none => simp
  | some v => exact memT_fieldInter v cv x

theorem memT_bind_left (o : Option FieldValue) (av : FieldValue) (x : ℚ) :
    memO (o.bind (fun v => fieldInter av v)) x = true ↔
    (memB av x = true ∧ memO o x = true) := by
  cases o with
  | none => simp
  | some v => exact memT_fieldInter av v x

theorem fieldInter_assoc (a b c : FieldValue) :
    (fieldInter a b).bind (fun v => fieldInter v c) =
    (fieldInter b c).bind (fun v => fieldInter a v) := by
  have canL : ∀ {d : FieldValue},
      (fieldInter a b).bind (fun v => fieldInter v c) = some d → CanonF d := by
    intro d hdd
    cases hab : fieldInter a b with
    | none => rw [hab] at hdd; simp at hdd
    | some w =>
      rw [hab] at hdd
      exact canon_out hdd
  have canR : ∀ {d : FieldValue},
      (fieldInter b c).bind (fun v => fieldInter a v) = some d → CanonF d := by
    intro d hdd
    cases hbc : fieldInter b c with
    | none => rw [hbc] at hdd; simp at hdd
    | some w =>
      rw [hbc] at hdd
      exact canon_out hdd
  have semL : ∀ x, memO ((fieldInter a b).bind (fun v => fieldInter v c)) x = true ↔
      (memB a x = true ∧ memB b x = true ∧ memB c x = true) := by
    intro x
    rw [memT_bind_right, memT_fieldInter]
    tauto
  have semR : ∀ x, memO ((fieldInter b c).bind (fun v => fieldInter a v)) x = true ↔
      (memB a x = true ∧ memB b x = true ∧ memB c x = true) := by
    intro x
    rw [memT_bind_left, memT_fieldInter]
  cases hL : (fieldInter a b).bind (fun v => fieldInter v c) with
  | none =>
    cases hR : (fieldInter b c).bind (fun v => fieldInter a v) with
    | none => rfl
    | some d =>
      exfalso
      obtain ⟨x, hx⟩ := canon_nonempty (canR hR)
      have h1 := (semR x).mp (by rw [hR]; simpa)
      have h2 := (semL x).mpr h1
      rw [hL] at h2
      simp at h2
  | some d =>
    cases hR : (fieldInter b c).bind (fun v => fieldInter a v) with
    | none =>
      exfalso
      obtain ⟨x, hx⟩ := canon_nonempty (canL hL)
      have h1 := (semL x).mp (by rw [hL]; simpa)
      have h2 := (semR x).mpr h1
      rw [hR] at h2
      simp at h2
    | some e =>
      congr 1
      apply canon_unique (canL hL) (canR hR)
      intro x
      have l1 := semL x
      have r1 := semR x
      rw [hL] at l1
      rw [hR] at r1
      simp only [memO_some] at l1 r1
      rw [l1, r1]

/-- Modelled from the spec: a format-descriptor record: a media-type tag and
a mapping from field names to field values (§3).  Names are Nat atoms. -/
structure GstStructure where
  media : Nat
  fields : List (Nat × FieldValue)
deriving DecidableEq

/-- First-match lookup in a field mapping. -/
def flookup : List (Nat × FieldValue) → Nat → Option FieldValue
  | [], _ => none
  | (m, v) :: rest, n => if m = n then some v else flookup rest n

/-- Combine two optional per-name constraints: present on both sides means
pointwise intersection, present on one side only is kept as it is. -/
def ocomb : Option FieldValue → Option FieldValue → Option FieldValue
  | some v, some w => fieldInter v w
  | some v, none => some v
  | none, some w => some w
  | none, none => none

def combineAt (f1 f2 : List (Nat × FieldValue)) (n : Nat) : Option FieldValue :=
  ocomb (flookup f1 n) (flookup f2 n)

/-- Build a field mapping over the given names; fails when some name
combines to the empty constraint. -/
def buildFields (g : Nat → Option FieldValue) : List Nat → Option (List (Nat × FieldValue))
  | [] => some []
  | n :: ns =>
    match g n, buildFields g ns with
    | some v, some rest => some ((n, v) :: rest)
    | _, _ => none

def fnames (f : List (Nat × FieldValue)) : List Nat := f.map Prod.fst

def unionNames (f1 f2 : List (Nat × FieldValue)) : List Nat :=
  csort (fnames f1 ++ fnames f2)

/-- Modelled from the spec: record-by-record intersection (§4.1): requires
equal media types; fields present on both sides intersect pointwise, a field
present on one side only constrains the result as it is. -/
def recordInter (a b : GstStructure) : Option GstStructure :=
  if a.media = b.media then
    (buildFields (combineAt a.fields b.fields) (unionNames a.fields b.fields)).map
      (fun fs => { media := a.media, fields := fs })
  else none

theorem flookup_none_iff (f : List (Nat × FieldValue)) (n : Nat) :
    flookup f n = none ↔ n ∉ fnames f := by
  induction f with
  | nil => simp [flookup, fnames]
  | cons p rest ih =>
    obtain ⟨m, v⟩ := p
    rw [flookup]
    by_cases h : m = n
    · subst h
      simp [fnames]
    · rw [if_neg h, ih]
      have : n ∈ fnames ((m, v) :: rest) ↔ n = m ∨ n ∈ fnames rest := by
        simp [fnames]
      rw [this]
      constructor
      · intro hn hc
        rcases hc with hc | hc
        · exact h hc.symm
        · exact hn hc
      · intro hn hc
        exact hn (Or.inr hc)

theorem flookup_mem {f : List (Nat × FieldValue)} {n : Nat} {v : FieldValue}
    (h : flookup f n = some v) : (n, v) ∈ f := by
  induction f with
  | nil => simp [flookup] at h
  | cons p rest ih =>
    obtain ⟨m, w⟩ := p
    by_cases hm : m = n
    · subst hm
      simp [flookup] at h
      simp [h]
    · simp [flookup, hm] at h
      simp [ih h]

theorem flookup_isSome_of_mem {f : List (Nat × FieldValue)} {n : Nat} {v : FieldValue}
    (h : (n, v) ∈ f) : ∃ w, flookup f n = some w := by
  induction f with
  | nil => simp at h
  | cons p rest ih =>
    obtain ⟨m, w⟩ := p
    by_cases hm : m = n
    · subst hm; exact ⟨w, by simp [flookup]⟩
    · rcases List.mem_cons.mp h with he | hmem
      · exact absurd (congrArg Prod.fst he).symm hm
      · obtain ⟨w2, hw2⟩ := ih hmem
        exact ⟨w2, by simpa [flookup, hm] using hw2⟩

theorem buildFields_names {g : Nat → Option FieldValue} {ns : List Nat}
    {fs : List (Nat × FieldValue)} (h : buildFields g ns = some fs) :
    fnames fs = ns := by
  induction ns generalizing fs with
  | nil => simp [buildFields] at h; simp [← h, fnames]
  | cons n rest ih =>
    rw [buildFields] at h
    cases hg : g n with
    | none => rw [hg] at h; simp at h
    | some v =>
      rw [hg] at h
      cases hb : buildFields g rest with
      | none => rw [hb] at h; simp at h
      | some fs2 =>
        rw [hb] at h
        simp at h
        rw [← h]
        exact congrArg (List.cons n) (ih hb)

theorem buildFields_lookup {g : Nat → Option FieldValue} {ns : List Nat}
    {fs : List (Nat × FieldValue)} (h : buildFields g ns = some fs) :
    ∀ n ∈ ns, flookup fs n = g n := by
  induction ns generalizing fs with
  | nil => simp
  | cons n rest ih =>
    rw [buildFields] at h
    cases hg : g n with
    | none => rw [hg] at h; simp at h
    | some v =>
      rw [hg] at h
      cases hb : buildFields g rest with
      | none => rw [hb] at h; simp at h
      | some fs2 =>
        rw [hb] at h
        simp at h
        intro m hm
        rcases List.mem_cons.mp hm with he | hmem
        · subst he
          rw [← h, flookup, if_pos rfl, hg]
        · by_cases hmn : m = n
          · subst hmn
            rw [← h, flookup, if_pos rfl, hg]
          · rw [← h, flookup, if_neg (fun hh => hmn hh.symm)]
            exact ih hb m hmem

theorem buildFields_none_iff {g : Nat → Option FieldValue} {ns : List Nat} :
    buildFields g ns = none ↔ ∃ n ∈ ns, g n = none := by
  induction ns with
  | nil => simp [buildFields]
  | cons n rest ih =>
    rw [buildFields]
    cases hg : g n with
    | none => simp [hg]
    | some v =>
      cases hb : buildFields g rest with
      | none =>
        simp only [ih] at hb
        simp only [true_iff, reduceCtorEq]
        obtain ⟨m, hm1, hm2⟩ := hb
        exact ⟨m, List.mem_cons_of_mem _ hm1, hm2⟩
      | some fs =>
        simp only [reduceCtorEq, false_iff, not_exists, not_and]
        intro m hm
        rcases List.mem_cons.mp hm with he | hmem
        · subst he; simp [hg]
        · intro hc
          have : buildFields g rest = none := ih.mpr ⟨m, hmem, hc⟩
          rw [hb] at this
          exact Option.noConfusion this

theorem buildFields_congr {g g' : Nat → Option FieldValue} {ns : List Nat}
    (h : ∀ n ∈ ns, g n = g' n) : buildFields g ns = buildFields g' ns := by
  induction ns with
  | nil => rfl
  | cons n rest ih =>
    rw [buildFields, buildFields, h n (by simp),
      ih (fun m hm => h m (List.mem_cons_of_mem _ hm))]

theorem mem_unionNames {f1 f2 : List (Nat × FieldValue)} {n : Nat} :
    n ∈ unionNames f1 f2 ↔ n ∈ fnames f1 ∨ n ∈ fnames f2 := by
  simp [unionNames, csort_mem]

theorem recordInter_media {a b r : GstStructure} (h : recordInter a b = some r) :
    r.media = a.media ∧ a.media = b.media := by
  by_cases hm : a.media = b.media
  · rw [recordInter, if_pos hm] at h
    cases hb : buildFields (combineAt a.fields b.fields) (unionNames a.fields b.fields) with
    | none => rw [hb] at h; simp at h
    | some fs =>
      rw [hb] at h
      simp at h
      rw [← h]
      exact ⟨rfl, hm⟩
  · rw [recordInter, if_neg hm] at h
    exact Option.noConfusion h

theorem recordInter_none {a b : GstStructure} (h : a.media ≠ b.media) :
    recordInter a b = none := by
  rw [recordInter, if_neg h]

theorem recordInter_lookup {a b r : GstStructure} (h : recordInter a b = some r) :
    ∀ n, flookup r.fields n = combineAt a.fields b.fields n := by
  intro n
  by_cases hm : a.media = b.media
  · rw [recordInter, if_pos hm] at h
    cases hb : buildFields (combineAt a.fields b.fields) (unionNames a.fields b.fields) with
    | none => rw [hb] at h; simp at h
    | some fs =>
      rw [hb] at h
      simp at h
      rw [← h]
      by_cases hn : n ∈ unionNames a.fields b.fields
      · exact buildFields_lookup hb n hn
      · have h1 : flookup fs n = none := by
          rw [flookup_none_iff, buildFields_names hb]
          exact hn
        have h2 : flookup a.fields n = none := by
          rw [flookup_none_iff]
          exact fun hc => hn (mem_unionNames.mpr (Or.inl hc))
        have h3 : flookup b.fields n = none := by
          rw [flookup_none_iff]
          exact fun hc => hn (mem_unionNames.mpr (Or.inr hc))
        rw [h1, combineAt, h2, h3]
        rfl
  · rw [recordInter, if_neg hm] at h
    exact Option.noConfusion h

theorem recordInter_comm (a b : GstStructure) : recordInter a b = recordInter b a := by
  by_cases h : a.media = b.media
  · rw [recordInter, recordInter, if_pos h, if_pos h.symm]
    have hn : unionNames b.fields a.fields = unionNames a.fields b.fields :=
      csort_eq_of_mem (by intro x; simp; tauto)
    have hg : ∀ n, combineAt a.fields b.fields n = combineAt b.fields a.fields n := by
      intro n
      rw [combineAt, combineAt]
      cases flookup a.fields n <;> cases flookup b.fields n <;>
        simp [ocomb, fieldInter_comm]
    rw [hn, buildFields_congr (fun n _ => hg n), h]
  · rw [recordInter_none h, recordInter_none (fun hh => h hh.symm)]

/-- Well-formed field values: ranges and alternative lists are nonempty. -/
def wfF : FieldValue → Bool
  | .scalar _ => true
  | .range lo hi => decide (lo ≤ hi)
  | .list vs => !vs.isEmpty

def wfRec (r : GstStructure) : Bool := r.fields.all fun p => wfF p.2

theorem canon_wf {v : FieldValue} (h : CanonF v) : wfF v = true := by
  cases v with
  | scalar a => rfl
  | range lo hi => simp [wfF]; exact le_of_lt h
  | list vs =>
    rcases h with ⟨hlen, _⟩
    cases vs with
    | nil => simp at hlen
    | cons a l => simp [wfF]

theorem flookup_wf {r : GstStructure} {n : Nat} {v : FieldValue}
    (hwf : wfRec r = true) (h : flookup r.fields n = some v) : wfF v = true := by
  have hm := flookup_mem h
  exact List.all_eq_true.mp hwf _ hm

theorem buildFields_some_ne_none {g : Nat → Option FieldValue} {ns : List Nat}
    {fs : List (Nat × FieldValue)} (h : buildFields g ns = some fs) :
    ∀ n ∈ ns, g n ≠ none := by
  intro n hn hc
  have : buildFields g ns = none := buildFields_none_iff.mpr ⟨n, hn, hc⟩
  rw [h] at this
  exact Option.noConfusion this

theorem fieldInter_none_iff (a b : FieldValue) :
    fieldInter a b = none ↔ ∀ x, ¬(memB a x = true ∧ memB b x = true) := by
  constructor
  · intro h x hc
    have := (memT_fieldInter a b x).mpr hc
    rw [h] at this
    simp at this
  · intro h
    cases hab : fieldInter a b with
    | none => rfl
    | some c =>
      obtain ⟨x, hx⟩ := canon_nonempty (canon_out hab)
      have := (memT_fieldInter a b x).mp (by rw [hab]; simpa)
      exact absurd this (h x)

theorem memT_of_fieldInter {a b c : FieldValue} (h : fieldInter a b = some c) (x : ℚ) :
    memB c x = true ↔ (memB a x = true ∧ memB b x = true) := by
  have := memT_fieldInter a b x
  rw [h] at this
  simpa using this

theorem flookup_some_mem_names {f : List (Nat × FieldValue)} {n : Nat} {v : FieldValue}
    (h : flookup f n = some v) : n ∈ fnames f := by
  by_contra hc
  rw [← flookup_none_iff] at hc
  rw [h] at hc
  exact Option.noConfusion hc

theorem mergeFields_lookup {f1 f2 : List (Nat × FieldValue)}
    {fs : List (Nat × FieldValue)}
    (h : buildFields (combineAt f1 f2) (unionNames f1 f2) = some fs) :
    ∀ n, flookup fs n = combineAt f1 f2 n := by
  intro n
  by_cases hn : n ∈ unionNames f1 f2
  · exact buildFields_lookup h n hn
  · have ha : flookup f1 n = none := by
      rw [flookup_none_iff]
      exact fun hc => hn (mem_unionNames.mpr (Or.inl hc))
    have hb : flookup f2 n = none := by
      rw [flookup_none_iff]
      exact fun hc => hn (mem_unionNames.mpr (Or.inr hc))
    have h1 : flookup fs n = none := by
      rw [flookup_none_iff, buildFields_names h]
      exact hn
    rw [h1, combineAt, ha, hb]
    rfl


theorem ocomb_none_left (o : Option FieldValue) : ocomb none o = o := by
  cases o <;> rfl

theorem ocomb_none_right (o : Option FieldValue) : ocomb o none = o := by
  cases o <;> rfl

theorem fieldInter_none_right_absorb {v1 v2 v3 u : FieldValue}
    (h12 : fieldInter v1 v2 = none) (hu : fieldInter v2 v3 = some u) :
    fieldInter v1 u = none := by
  rw [fieldInter_none_iff] at h12 ⊢
  rintro x ⟨hx1, hxu⟩
  have := (memT_of_fieldInter hu x).mp hxu
  exact h12 x ⟨hx1, this.1⟩

theorem fieldInter_none_left_absorb {v1 v2 v3 w : FieldValue}
    (h23 : fieldInter v2 v3 = none) (hw : fieldInter v1 v2 = some w) :
    fieldInter w v3 = none := by
  rw [fieldInter_none_iff] at h23 ⊢
  rintro x ⟨hxw, hx3⟩
  have := (memT_of_fieldInter hw x).mp hxw
  exact h23 x ⟨this.2, hx3⟩

theorem ocomb_assoc {o1 o2 o3 : Option FieldValue}
    (h12 : ∀ v1 v2, o1 = some v1 → o2 = some v2 → fieldInter v1 v2 ≠ none)
    (h23 : ∀ v2 v3, o2 = some v2 → o3 = some v3 → fieldInter v2 v3 ≠ none) :
    ocomb (ocomb o1 o2) o3 = ocomb o1 (ocomb o2 o3) := by
  cases o1 with
  | none => rw [ocomb_none_left, ocomb_none_left]
  | some v1 =>
    cases o2 with
    | none => rw [ocomb_none_right, ocomb_none_left]
    | some v2 =>
      obtain ⟨w, hw⟩ : ∃ w, fieldInter v1 v2 = some w := by
        cases hfi : fieldInter v1 v2 with
        | none => exact absurd hfi (h12 v1 v2 rfl rfl)
        | some w => exact ⟨w, rfl⟩
      cases o3 with
      | none =>
        show ocomb (fieldInter v1 v2) none = ocomb (some v1) (some v2)
        rw [ocomb_none_right]
        rfl
      | some v3 =>
        obtain ⟨u, hu⟩ : ∃ u, fieldInter v2 v3 = some u := by
          cases hfi : fieldInter v2 v3 with
          | none => exact absurd hfi (h23 v2 v3 rfl rfl)
          | some u => exact ⟨u, rfl⟩
        show ocomb (fieldInter v1 v2) (some v3) = ocomb (some v1) (fieldInter v2 v3)
        rw [hw, hu]
        show fieldInter w v3 = fieldInter v1 u
        have h := fieldInter_assoc v1 v2 v3
        rw [hw, hu] at h
        exact h

theorem recordInter_assoc (a b c : GstStructure) :
    (recordInter a b).bind (fun r => recordInter r c) =
    (recordInter b c).bind (fun r => recordInter a r) := by
  by_cases h1 : a.media = b.media
  · by_cases h2 : b.media = c.media
    · -- all three media equal
      have e12 : recordInter a b =
          (buildFields (combineAt a.fields b.fields) (unionNames a.fields b.fields)).map
            (fun fs => { media := a.media, fields := fs }) := by
        rw [recordInter, if_pos h1]
      have e23 : recordInter b c =
          (buildFields (combineAt b.fields c.fields) (unionNames b.fields c.fields)).map
            (fun fs => { media := b.media, fields := fs }) := by
        rw [recordInter, if_pos h2]
      cases hb12 : buildFields (combineAt a.fields b.fields) (unionNames a.fields b.fields) with
      | none =>
        have hLnone : recordInter a b = none := by rw [e12, hb12]; rfl
        obtain ⟨n, hnmem, hgn⟩ := buildFields_none_iff.mp hb12
        rw [combineAt] at hgn
        cases hla : flookup a.fields n with
        | none =>
          cases hlb : flookup b.fields n with
          | none =>
            exfalso
            rcases mem_unionNames.mp hnmem with hcm | hcm
            · exact ((flookup_none_iff _ _).mp hla) hcm
            · exact ((flookup_none_iff _ _).mp hlb) hcm
          | some v2 =>
            rw [hla, hlb] at hgn
            exact absurd hgn (by simp [ocomb])
        | some v1 =>
          cases hlb : flookup b.fields n with
          | none =>
            rw [hla, hlb] at hgn
            exact absurd hgn (by simp [ocomb])
          | some v2 =>
            rw [hla, hlb] at hgn
            have hiv : fieldInter v1 v2 = none := hgn
            rw [hLnone]
            cases hb23 : buildFields (combineAt b.fields c.fields)
                (unionNames b.fields c.fields) with
            | none =>
              rw [e23, hb23]
              rfl
            | some f23 =>
              rw [e23, hb23]
              show (none : Option GstStructure) = recordInter a ⟨b.media, f23⟩
              symm
              simp only [recordInter]
              rw [if_pos h1]
              have hnone : buildFields (combineAt a.fields f23) (unionNames a.fields f23)
                  = none := by
                apply buildFields_none_iff.mpr
                refine ⟨n, mem_unionNames.mpr (Or.inl (flookup_some_mem_names hla)), ?_⟩
                rw [combineAt, hla, mergeFields_lookup hb23 n, combineAt, hlb]
                cases hlc : flookup c.fields n with
                | none => exact hiv
                | some v3 =>
                  have hne : fieldInter v2 v3 ≠ none := by
                    have := buildFields_some_ne_none hb23 n
                      (mem_unionNames.mpr (Or.inl (flookup_some_mem_names hlb)))
                    rw [combineAt, hlb, hlc] at this
                    exact this
                  obtain ⟨u, hu⟩ : ∃ u, fieldInter v2 v3 = some u := by
                    cases hfi : fieldInter v2 v3 with
                    | none => exact absurd hfi hne
                    | some u => exact ⟨u, rfl⟩
                  show ocomb (some v1) (fieldInter v2 v3) = none
                  rw [hu]
                  show fieldInter v1 u = none
                  exact fieldInter_none_right_absorb hiv hu
              rw [hnone]
              rfl
      | some f12 =>
        have hab : recordInter a b = some ⟨a.media, f12⟩ := by rw [e12, hb12]; rfl
        cases hb23 : buildFields (combineAt b.fields c.fields)
            (unionNames b.fields c.fields) with
        | none =>
          have hbc : recordInter b c = none := by rw [e23, hb23]; rfl
          rw [hab, hbc]
          show recordInter ⟨a.media, f12⟩ c = none
          obtain ⟨n, hnmem, hgn⟩ := buildFields_none_iff.mp hb23
          rw [combineAt] at hgn
          cases hlb : flookup b.fields n with
          | none =>
            cases hlc : flookup c.fields n with
            | none =>
              exfalso
              rcases mem_unionNames.mp hnmem with hcm | hcm
              · exact ((flookup_none_iff _ _).mp hlb) hcm
              · exact ((flookup_none_iff _ _).mp hlc) hcm
            | some v3 =>
              rw [hlb, hlc] at hgn
              exact absurd hgn (by simp [ocomb])
          | some v2 =>
            cases hlc : flookup c.fields n with
            | none =>
              rw [hlb, hlc] at hgn
              exact absurd hgn (by simp [ocomb])
            | some v3 =>
              rw [hlb, hlc] at hgn
              have hiv : fieldInter v2 v3 = none := hgn
              simp only [recordInter]
              rw [if_pos (h1.trans h2)]
              have hnone2 : buildFields (combineAt f12 c.fields) (unionNames f12 c.fields)
                  = none := by
                apply buildFields_none_iff.mpr
                refine ⟨n, mem_unionNames.mpr (Or.inr (flookup_some_mem_names hlc)), ?_⟩
                rw [combineAt, mergeFields_lookup hb12 n, combineAt, hlb, hlc]
                cases hla : flookup a.fields n with
                | none =>
                  show fieldInter v2 v3 = none
                  exact hiv
                | some v1 =>
                  have hne : fieldInter v1 v2 ≠ none := by
                    have := buildFields_some_ne_none hb12 n
                      (mem_unionNames.mpr (Or.inr (flookup_some_mem_names hlb)))
                    rw [combineAt, hla, hlb] at this
                    exact this
                  obtain ⟨w, hw⟩ : ∃ w, fieldInter v1 v2 = some w := by
                    cases hfi : fieldInter v1 v2 with
                    | none => exact absurd hfi hne
                    | some w => exact ⟨w, rfl⟩
                  show ocomb (fieldInter v1 v2) (some v3) = none
                  rw [hw]
                  show fieldInter w v3 = none
                  exact fieldInter_none_left_absorb hiv hw
              rw [hnone2]
              rfl
        | some f23 =>
          have hbc : recordInter b c = some ⟨b.media, f23⟩ := by rw [e23, hb23]; rfl
          rw [hab, hbc]
          show recordInter ⟨a.media, f12⟩ c = recordInter a ⟨b.media, f23⟩
          simp only [recordInter]
          rw [if_pos (h1.trans h2), if_pos h1]
          have hN : unionNames f12 c.fields = unionNames a.fields f23 := by
            rw [unionNames, unionNames]
            apply csort_eq_of_mem
            intro x
            have h12n : fnames f12 = unionNames a.fields b.fields := buildFields_names hb12
            have h23n : fnames f23 = unionNames b.fields c.fields := buildFields_names hb23
            simp only [List.mem_append, h12n, h23n, mem_unionNames]
            tauto
          rw [hN]
          congr 1
          apply buildFields_congr
          intro n hn
          rw [combineAt, combineAt, mergeFields_lookup hb12 n, mergeFields_lookup hb23 n,
            combineAt, combineAt]
          apply ocomb_assoc
          · intro v1 v2 hv1 hv2
            have := buildFields_some_ne_none hb12 n
              (mem_unionNames.mpr (Or.inl (flookup_some_mem_names hv1)))
            rw [combineAt, hv1, hv2] at this
            exact this
          · intro v2 v3 hv2 hv3
            have := buildFields_some_ne_none hb23 n
              (mem_unionNames.mpr (Or.inl (flookup_some_mem_names hv2)))
            rw [combineAt, hv2, hv3] at this
            exact this
    · -- b and c have different media: both sides are none
      rw [recordInter_none h2]
      cases hab : recordInter a b with
      | none => rfl
      | some r =>
        have hm := recordInter_media hab
        have : recordInter r c = none :=
          recordInter_none (by rw [hm.1]; exact fun hc => h2 (hm.2.symm.trans hc))
        simp [this]
  · -- a and b have different media: both sides are none
    rw [recordInter_none h1]
    cases hbc : recordInter b c with
    | none => rfl
    | some r =>
      have hm := recordInter_media hbc
      have : recordInter a r = none :=
        recordInter_none (by rw [hm.1]; exact h1)
      simp [this]

theorem flookup_all_wf {f : List (Nat × FieldValue)} {n : Nat} {v : FieldValue}
    (hwf : f.all (fun p => wfF p.2) = true) (h : flookup f n = some v) : wfF v = true :=
  List.all_eq_true.mp hwf _ (flookup_mem h)

theorem flookup_of_mem_nodup {f : List (Nat × FieldValue)} {n : Nat} {v : FieldValue}
    (hnd : (fnames f).Nodup) (h : (n, v) ∈ f) : flookup f n = some v := by
  induction f with
  | nil => simp at h
  | cons p rest ih =>
    obtain ⟨m, w⟩ := p
    rcases List.mem_cons.mp h with he | hmem
    · obtain ⟨he1, he2⟩ := Prod.mk.injEq .. ▸ he.symm
      rw [flookup, if_pos he1, he2]
    · have hn : n ∈ fnames rest := by
        rw [fnames, List.mem_map]
        exact ⟨(n, v), hmem, rfl⟩
      have hmn : m ≠ n := by
        intro hc
        subst hc
        exact (List.nodup_cons.mp hnd).1 hn
      rw [flookup, if_neg hmn]
      exact ih (List.nodup_cons.mp hnd).2 hmem

theorem recordInter_names {a b r : GstStructure} (h : recordInter a b = some r) :
    fnames r.fields = unionNames a.fields b.fields := by
  by_cases hm : a.media = b.media
  · rw [recordInter, if_pos hm] at h
    cases hb : buildFields (combineAt a.fields b.fields) (unionNames a.fields b.fields) with
    | none => rw [hb] at h; simp at h
    | some fs =>
      rw [hb] at h
      simp at h
      rw [← h]
      exact buildFields_names hb
  · rw [recordInter_none hm] at h
    exact Option.noConfusion h

theorem recordInter_combine_ne_none {a b r : GstStructure} (h : recordInter a b = some r) :
    ∀ n ∈ unionNames a.fields b.fields, combineAt a.fields b.fields n ≠ none := by
  by_cases hm : a.media = b.media
  · rw [recordInter, if_pos hm] at h
    cases hb : buildFields (combineAt a.fields b.fields) (unionNames a.fields b.fields) with
    | none => rw [hb] at h; simp at h
    | some fs => exact buildFields_some_ne_none hb
  · rw [recordInter_none hm] at h
    exact Option.noConfusion h

theorem recordInter_wf {a b r : GstStructure} (hwa : wfRec a = true) (hwb : wfRec b = true)
    (h : recordInter a b = some r) : wfRec r = true := by
  rw [wfRec, List.all_eq_true]
  rintro ⟨n, v⟩ hm
  have hnd : (fnames r.fields).Nodup := by
    rw [recordInter_names h]
    exact csort_nodup _
  have hl : flookup r.fields n = some v := flookup_of_mem_nodup hnd hm
  rw [recordInter_lookup h n, combineAt] at hl
  cases hla : flookup a.fields n with
  | none =>
    cases hlb : flookup b.fields n with
    | none =>
      rw [hla, hlb] at hl
      exact Option.noConfusion hl
    | some w =>
      rw [hla, hlb, ocomb_none_left] at hl
      rw [← Option.some.inj hl]
      exact flookup_all_wf hwb hlb
  | some w1 =>
    cases hlb : flookup b.fields n with
    | none =>
      rw [hla, hlb, ocomb_none_right] at hl
      rw [← Option.some.inj hl]
      exact flookup_all_wf hwa hla
    | some w2 =>
      rw [hla, hlb] at hl
      have hfi : fieldInter w1 w2 = some v := hl
      exact canon_wf (canon_out hfi)

/-- Semantic record refinement: same media, and every field constraint of s
is matched in r by a semantically tighter constraint. -/
def SubRec (r s : GstStructure) : Prop :=
  r.media = s.media ∧ ∀ n w, flookup s.fields n = some w →
    ∃ v, flookup r.fields n = some v ∧ ∀ x, memB v x = true → memB w x = true

theorem recordInter_subL {a b r : GstStructure} (h : recordInter a b = some r) :
    SubRec r a := by
  refine ⟨(recordInter_media h).1, ?_⟩
  intro n w hw
  have hl := recordInter_lookup h n
  rw [combineAt, hw] at hl
  cases hlb : flookup b.fields n with
  | none =>
    rw [hlb, ocomb_none_right] at hl
    exact ⟨w, hl, fun x hx => hx⟩
  | some w2 =>
    rw [hlb] at hl
    have hne : fieldInter w w2 ≠ none := by
      intro hc
      have := recordInter_combine_ne_none h n
        (mem_unionNames.mpr (Or.inl (flookup_some_mem_names hw)))
      rw [combineAt, hw, hlb] at this
      exact this hc
    obtain ⟨v, hv⟩ : ∃ v, fieldInter w w2 = some v := by
      cases hfi : fieldInter w w2 with
      | none => exact absurd hfi hne
      | some v => exact ⟨v, rfl⟩
    refine ⟨v, by rw [hl]; exact hv, ?_⟩
    intro x hx
    exact ((memT_of_fieldInter hv x).mp hx).1

theorem recordInter_subR {a b r : GstStructure} (h : recordInter a b = some r) :
    SubRec r b := by
  refine ⟨(recordInter_media h).1.trans (recordInter_media h).2, ?_⟩
  intro n w hw
  have hl := recordInter_lookup h n
  rw [combineAt, hw] at hl
  cases hla : flookup a.fields n with
  | none =>
    rw [hla, ocomb_none_left] at hl
    exact ⟨w, hl, fun x hx => hx⟩
  | some w1 =>
    rw [hla] at hl
    have hne : fieldInter w1 w ≠ none := by
      intro hc
      have := recordInter_combine_ne_none h n
        (mem_unionNames.mpr (Or.inr (flookup_some_mem_names hw)))
      rw [combineAt, hla, hw] at this
      exact this hc
    obtain ⟨v, hv⟩ : ∃ v, fieldInter w1 w = some v := by
      cases hfi : fieldInter w1 w with
      | none => exact absurd hfi hne
      | some v => exact ⟨v, rfl⟩
    refine ⟨v, by rw [hl]; exact hv, ?_⟩
    intro x hx
    exact ((memT_of_fieldInter hv x).mp hx).2

theorem SubRec_trans {r s t : GstStructure} (h1 : SubRec r s) (h2 : SubRec s t) :
    SubRec r t := by
  refine ⟨h1.1.trans h2.1, ?_⟩
  intro n w hw
  obtain ⟨v, hv, himp⟩ := h2.2 n w hw
  obtain ⟨u, hu, himp2⟩ := h1.2 n v hv
  exact ⟨u, hu, fun x hx => himp x (himp2 x hx)⟩

/-- Modelled from the spec: fixation of a single field (§4.1): the canonical
representative is the minimum of a range or the first element of a list. -/
def fixateField : FieldValue → FieldValue
  | .scalar a => .scalar a
  | .range lo _ => .scalar lo
  | .list [] => .list []
  | .list (v :: _) => .scalar v

def fixateRecord (r : GstStructure) : GstStructure :=
  { media := r.media, fields := r.fields.map fun p => (p.1, fixateField p.2) }

/-- Modelled from the spec: fixation of a descriptor picks the preferred
(first) record and fixates every field (§4.1). -/
def fixate : List GstStructure → List GstStructure
  | [] => []
  | r :: _ => [fixateRecord r]

theorem fixateField_scalar {v : FieldValue} (h : wfF v = true) :
    ∃ c, fixateField v = .scalar c ∧ memB v c = true := by
  cases v with
  | scalar a => exact ⟨a, rfl, by simp⟩
  | range lo hi =>
    refine ⟨lo, rfl, ?_⟩
    simp [wfF] at h
    simp [h]
  | list vs =>
    cases vs with
    | nil => simp [wfF] at h
    | cons v0 tl => exact ⟨v0, rfl, by simp⟩

theorem flookup_map_fix (f : List (Nat × FieldValue)) (n : Nat) :
    flookup (f.map fun p => (p.1, fixateField p.2)) n = (flookup f n).map fixateField := by
  induction f with
  | nil => rfl
  | cons p rest ih =>
    obtain ⟨m, v⟩ := p
    by_cases h : m = n
    · subst h
      simp [flookup]
    · simp [flookup, h, ih]

/-- Syntactic subset test on field values, sound for the semantics. -/
def fieldSub : FieldValue → FieldValue → Bool
  | .scalar v, w => memB w v
  | .list vs, w => vs.all (memB w)
  | .range lo hi, .scalar a => decide (lo = a) && decide (hi = a)
  | .range lo hi, .range lo2 hi2 => decide (lo2 ≤ lo) && decide (hi ≤ hi2)
  | .range lo hi, .list ws => decide (lo = hi) && decide (lo ∈ ws)

/-- Syntactic record subset test: same media and every field of s is matched
by a tighter field of r. -/
def Rsub (r s : GstStructure) : Bool :=
  decide (r.media = s.media) &&
    s.fields.all fun p =>
      match flookup s.fields p.1, flookup r.fields p.1 with
      | some w, some v => fieldSub v w
      | _, _ => false

/-- Modelled from the spec: subset test between descriptors (§4.1): every
record of A is representable in some record of B. -/
def capsSub (A B : List GstStructure) : Bool := A.all fun r => B.any fun s => Rsub r s

/-- Modelled from the spec: a descriptor is fixed iff it has exactly one
record and every field of that record is a fixed scalar (§3). -/
def is_fixed : List GstStructure → Bool
  | [r] => r.fields.all fun p => match p.2 with | .scalar _ => true | _ => false
  | _ => false

theorem Rsub_of_SubRec {r s : GstStructure} (hw : wfRec r = true) (hsub : SubRec r s) :
    Rsub (fixateRecord r) s = true := by
  rw [Rsub, Bool.and_eq_true]
  constructor
  · simp [fixateRecord, hsub.1]
  · rw [List.all_eq_true]
    rintro ⟨n, w0⟩ hm
    dsimp only
    obtain ⟨w, hwl⟩ := flookup_isSome_of_mem hm
    obtain ⟨v, hvl, himp⟩ := hsub.2 n w hwl
    have hwfv : wfF v = true := flookup_all_wf hw hvl
    obtain ⟨cc, hfx, hmem⟩ := fixateField_scalar hwfv
    have hfl : flookup (fixateRecord r).fields n = some (fixateField v) := by
      show flookup (r.fields.map fun p => (p.1, fixateField p.2)) n = _
      rw [flookup_map_fix, hvl]
      rfl
    rw [hwl, hfl, hfx]
    show memB w cc = true
    exact himp cc hmem

theorem fixateRecord_fixed {r : GstStructure} (hw : wfRec r = true) :
    is_fixed [fixateRecord r] = true := by
  show (fixateRecord r).fields.all _ = true
  rw [List.all_eq_true]
  rintro ⟨n, v⟩ hm
  obtain ⟨⟨m, w⟩, hmem, he⟩ := List.mem_map.mp hm
  have hwf : wfF w = true := List.all_eq_true.mp hw _ hmem
  obtain ⟨cc, hfx, _⟩ := fixateField_scalar hwf
  have : v = FieldValue.scalar cc := by
    have h2 : fixateField w = v := congrArg Prod.snd he
    rw [← h2, hfx]
  rw [this]

def fvEnc : FieldValue → (ℚ ⊕ ℚ × ℚ) ⊕ List ℚ
  | .scalar a => Sum.inl (Sum.inl a)
  | .range lo hi => Sum.inl (Sum.inr (lo, hi))
  | .list vs => Sum.inr vs

theorem fvEnc_inj : Function.Injective fvEnc := by
  intro a b h
  cases a <;> cases b <;> simp_all [fvEnc]

def recEnc (r : GstStructure) : Nat × List (Nat × ((ℚ ⊕ ℚ × ℚ) ⊕ List ℚ)) :=
  (r.media, r.fields.map fun p => (p.1, fvEnc p.2))

theorem recEnc_inj : Function.Injective recEnc := by
  intro a b h
  have h1 : a.media = b.media := congrArg Prod.fst h
  have h2 : a.fields.map (fun p => (p.1, fvEnc p.2)) =
      b.fields.map (fun p => (p.1, fvEnc p.2)) := congrArg Prod.snd h
  have hf : Function.Injective (fun p : Nat × FieldValue => (p.1, fvEnc p.2)) := by
    rintro ⟨n1, v1⟩ ⟨n2, v2⟩ hp
    simp only [Prod.mk.injEq] at hp
    rw [hp.1, fvEnc_inj hp.2]
  have h3 : a.fields = b.fields := List.map_injective_iff.mpr hf h2
  cases a
  cases b
  simp_all

/-- A total, injective sort key for records. -/
def rkey (r : GstStructure) : Nat := Encodable.encode (recEnc r)

theorem rkey_inj : Function.Injective rkey := fun _ _ h =>
  recEnc_inj (Encodable.encode_injective h)

def rle (a b : GstStructure) : Prop := rkey a ≤ rkey b

instance : DecidableRel rle := fun a b => Nat.decLe _ _

instance : IsTotal GstStructure rle := ⟨fun a b => Nat.le_total _ _⟩

instance : IsTrans GstStructure rle := ⟨fun _ _ _ h1 h2 => Nat.le_trans h1 h2⟩

instance : IsAntisymm GstStructure rle := ⟨fun _ _ h1 h2 => rkey_inj (Nat.le_antisymm h1 h2)⟩

/-- Canonical ordering of the records of a descriptor, so that descriptor
intersection (a set operation in the spec) is commutative and associative. -/
def sortRecs (l : List GstStructure) : List GstStructure := List.insertionSort rle l

theorem sortRecs_sorted (l : List GstStructure) : List.Sorted rle (sortRecs l) :=
  List.sorted_insertionSort rle l

theorem sortRecs_perm (l : List GstStructure) : (sortRecs l).Perm l :=
  List.perm_insertionSort rle l

theorem sortRecs_eq_of_perm {l m : List GstStructure} (h : l.Perm m) :
    sortRecs l = sortRecs m :=
  List.eq_of_perm_of_sorted ((sortRecs_perm l).trans (h.trans (sortRecs_perm m).symm))
    (sortRecs_sorted l) (sortRecs_sorted m)

def pairInter (A B : List GstStructure) : List GstStructure :=
  A.flatMap fun a => B.flatMap fun b => (recordInter a b).toList

/-- Modelled from the spec: descriptor intersection (§4.1): record-by-record
pairwise intersection of the two sets of records, in canonical order. -/
def capsInter (A B : List GstStructure) : List GstStructure := sortRecs (pairInter A B)

theorem mem_pairInter {A B : List GstStructure} {r : GstStructure} :
    r ∈ pairInter A B ↔ ∃ a ∈ A, ∃ b ∈ B, recordInter a b = some r := by
  simp [pairInter]

theorem mem_capsInter {A B : List GstStructure} {r : GstStructure} :
    r ∈ capsInter A B ↔ ∃ a ∈ A, ∃ b ∈ B, recordInter a b = some r := by
  rw [capsInter, (sortRecs_perm _).mem_iff]
  exact mem_pairInter

theorem flatMap_swap_perm {α β γ : Type} (L : List α) (M : List β) (g : α → β → List γ) :
    (L.flatMap fun a => M.flatMap fun b => g a b).Perm
      (M.flatMap fun b => L.flatMap fun a => g a b) := by
  rw [← Multiset.coe_eq_coe]
  have e1 : ((L.flatMap fun a => M.flatMap fun b => g a b : List γ) : Multiset γ)
      = (L : Multiset α).bind (fun a => (M : Multiset β).bind fun b => (g a b : Multiset γ)) := by
    rw [← Multiset.coe_bind]
    congr 1
    funext a
    rw [← Multiset.coe_bind]
  have e2 : ((M.flatMap fun b => L.flatMap fun a => g a b : List γ) : Multiset γ)
      = (M : Multiset β).bind (fun b => (L : Multiset α).bind fun a => (g a b : Multiset γ)) := by
    rw [← Multiset.coe_bind]
    congr 1
    funext b
    rw [← Multiset.coe_bind]
  rw [e1, e2]
  exact Multiset.bind_bind _ _

theorem capsInter_comm (A B : List GstStructure) : capsInter A B = capsInter B A := by
  apply sortRecs_eq_of_perm
  have he : pairInter A B = A.flatMap fun a => B.flatMap fun b => (recordInter b a).toList := by
    rw [pairInter]
    apply List.flatMap_congr
    intro a _
    apply List.flatMap_congr
    intro b _
    rw [recordInter_comm]
  rw [he]
  exact flatMap_swap_perm A B fun a b => (recordInter b a).toList

theorem toList_flatMap_toList (o : Option GstStructure) (f : GstStructure → Option GstStructure) :
    o.toList.flatMap (fun x => (f x).toList) = (o.bind f).toList := by
  cases o with
  | none => rfl
  | some x => simp

theorem flatMap_const_nil {α β : Type} (C : List α) :
    C.flatMap (fun _ => ([] : List β)) = [] := by
  induction C with
  | nil => rfl
  | cons c rest ih => simp [ih]

theorem toList_flatMap_swap (o : Option GstStructure) (C : List GstStructure)
    (k : GstStructure → GstStructure → List GstStructure) :
    o.toList.flatMap (fun x => C.flatMap fun c => k x c) =
      C.flatMap fun c => o.toList.flatMap fun x => k x c := by
  cases o with
  | none =>
    show ([] : List GstStructure).flatMap _ = _
    rw [List.flatMap_nil]
    exact (flatMap_const_nil C).symm
  | some x => simp

theorem pairInter_assoc (A B C : List GstStructure) :
    pairInter (pairInter A B) C = pairInter A (pairInter B C) := by
  simp only [pairInter, List.flatMap_assoc]
  apply List.flatMap_congr
  intro a _
  apply List.flatMap_congr
  intro b _
  rw [toList_flatMap_swap]
  apply List.flatMap_congr
  intro c _
  rw [toList_flatMap_toList, toList_flatMap_toList, recordInter_assoc]

theorem capsInter_assoc (A B C : List GstStructure) :
    capsInter (capsInter A B) C = capsInter A (capsInter B C) := by
  have p1 : (pairInter (sortRecs (pairInter A B)) C).Perm (pairInter (pairInter A B) C) :=
    (sortRecs_perm _).flatMap_right _
  have p2 : (pairInter A (sortRecs (pairInter B C))).Perm (pairInter A (pairInter B C)) :=
    List.Perm.flatMap_left A fun a _ => (sortRecs_perm _).flatMap_right _
  calc capsInter (capsInter A B) C
      = sortRecs (pairInter (pairInter A B) C) := sortRecs_eq_of_perm p1
    _ = sortRecs (pairInter A (pairInter B C)) := by rw [pairInter_assoc]
    _ = capsInter A (capsInter B C) := (sortRecs_eq_of_perm p2).symm

def wfCaps (A : List GstStructure) : Bool := A.all wfRec

theorem wfCaps_mem {A : List GstStructure} {r : GstStructure}
    (h : wfCaps A = true) (hm : r ∈ A) : wfRec r = true :=
  List.all_eq_true.mp h r hm

theorem capsInter_rec {A B : List GstStructure} {r : GstStructure}
    (hwa : wfCaps A = true) (hwb : wfCaps B = true) (hm : r ∈ capsInter A B) :
    wfRec r = true ∧ (∃ a ∈ A, SubRec r a) ∧ (∃ b ∈ B, SubRec r b) := by
  obtain ⟨a, ha, b, hb, hr⟩ := mem_capsInter.mp hm
  exact ⟨recordInter_wf (wfCaps_mem hwa ha) (wfCaps_mem hwb hb) hr,
    ⟨a, ha, recordInter_subL hr⟩, ⟨b, hb, recordInter_subR hr⟩⟩

/-- Modelled from the spec: the negotiation protocol on link creation
(§4.1): intersect the two templates; an empty intersection fails with
negotiation-impossible, otherwise the agreed descriptor is fixated to become
the link's negotiated format. -/
def negotiate (tp tc : List GstStructure) : Option (List GstStructure) :=
  match capsInter tp tc with
  | [] => none
  | r :: _ => some [fixateRecord r]

theorem fixed_caps_sub {X : List GstStructure} {r : GstStructure}
    (hwr : wfRec r = true) (hsub : ∃ a ∈ X, SubRec r a) :
    capsSub [fixateRecord r] X = true := by
  rw [capsSub, List.all_eq_true]
  intro s hs
  rw [List.mem_singleton] at hs
  rw [hs, List.any_eq_true]
  obtain ⟨a, ha, hsa⟩ := hsub
  exact ⟨a, ha, Rsub_of_SubRec hwr hsa⟩

theorem negotiate_props {tp tc F : List GstStructure}
    (hwp : wfCaps tp = true) (hwc : wfCaps tc = true) (h : negotiate tp tc = some F) :
    is_fixed F = true ∧ capsSub F tp = true ∧ capsSub F tc = true := by
  rw [negotiate] at h
  cases hI : capsInter tp tc with
  | nil => rw [hI] at h; simp at h
  | cons r rest =>
    rw [hI] at h
    simp at h
    obtain ⟨hwr, hsa, hsb⟩ := capsInter_rec hwp hwc (r := r) (by rw [hI]; simp)
    refine ⟨?_, ?_, ?_⟩
    · rw [← h]; exact fixateRecord_fixed hwr
    · rw [← h]; exact fixed_caps_sub hwr hsa
    · rw [← h]; exact fixed_caps_sub hwr hsb

/-- Modelled from the spec: a port: an identity and a template of acceptable
formats (§3, Port).  Only what the linking claims need is modelled. -/
structure CorePort where
  pid : Nat
  template : List GstStructure
deriving DecidableEq

/-- Modelled from the spec: a link: producer and consumer port with the
negotiated, fully fixed format (§3, Link). -/
structure CoreLink where
  producer : CorePort
  consumer : CorePort
  negotiated : List GstStructure
deriving DecidableEq

/-- Bus message kinds (§3, Message). -/
inductive MsgKind where
  | error
  | warning
  | info
  | eos
  | stateChanged
  | durationChanged
  | asyncDone
  | tag
deriving DecidableEq, Fintype

/-- A bus message: a kind and its posting time in nanoseconds. -/
structure CoreMsg where
  kind : MsgKind
  time : Nat
deriving DecidableEq

/-- Modelled from the spec: the graph state the link claims need: the set of
links and the control bus (§3, §4.6). -/
structure Graph where
  links : List CoreLink
  bus : List CoreMsg
deriving DecidableEq

inductive GraphOp where
  | link (p c : CorePort)
  | unlink (i : Nat)
  | renegotiate (i : Nat) (proposal : List GstStructure)
deriving DecidableEq

/-- Modelled from the spec: link creation (§4.1, §7): an empty template
intersection fails synchronously with negotiation-impossible, leaving the
graph (and its bus) unchanged; otherwise the new link carries the fixated
negotiated format. -/
def linkPorts (g : Graph) (p c : CorePort) : Option (List GstStructure) × Graph :=
  match negotiate p.template c.template with
  | none => (none, g)
  | some F => (some F, { g with links := ⟨p, c, F⟩ :: g.links })

/-- Modelled from the spec: renegotiation (§4.1): when a new upstream
proposal arrives, step 1 is re-run intersected with the proposal; failure
surfaces as an error message on the bus and the link keeps its format. -/
def renegotiateLink (l : CoreLink) (proposal : List GstStructure) :
    CoreLink × Option CoreMsg :=
  match capsInter proposal (capsInter l.producer.template l.consumer.template) with
  | [] => (l, some ⟨MsgKind.error, 0⟩)
  | r :: _ => ({ l with negotiated := [fixateRecord r] }, none)

def gstep (g : Graph) : GraphOp → Graph
  | .link p c => (linkPorts g p c).2
  | .unlink i => { g with links := g.links.eraseIdx i }
  | .renegotiate i proposal =>
    match g.links[i]? with
    | none => g
    | some l =>
      let lr := renegotiateLink l proposal
      { links := g.links.set i lr.1, bus := g.bus ++ lr.2.toList }

/-- The link invariant of the spec (§8, Invariant 1), together with
well-formedness of the port templates the links retain. -/
def linkInv (l : CoreLink) : Bool :=
  wfCaps l.producer.template && wfCaps l.consumer.template &&
    is_fixed l.negotiated && capsSub l.negotiated l.producer.template &&
    capsSub l.negotiated l.consumer.template

def graphInv (g : Graph) : Bool := g.links.all linkInv

def opWF : GraphOp → Bool
  | .link p c => wfCaps p.template && wfCaps c.template
  | .unlink _ => true
  | .renegotiate _ proposal => wfCaps proposal

theorem wfCaps_capsInter {A B : List GstStructure}
    (ha : wfCaps A = true) (hb : wfCaps B = true) : wfCaps (capsInter A B) = true := by
  rw [wfCaps, List.all_eq_true]
  intro r hm
  exact (capsInter_rec ha hb hm).1

theorem gstep_inv {g : Graph} {op : GraphOp}
    (hg : graphInv g = true) (hop : opWF op = true) : graphInv (gstep g op) = true := by
  cases op with
  | link p c =>
    rw [opWF, Bool.and_eq_true] at hop
    cases hne : negotiate p.template c.template with
    | none =>
      have he : gstep g (.link p c) = g := by rw [gstep, linkPorts, hne]
      rw [he]
      exact hg
    | some F =>
      have he : gstep g (.link p c) = { g with links := ⟨p, c, F⟩ :: g.links } := by
        rw [gstep, linkPorts, hne]
      rw [he, graphInv, List.all_eq_true]
      intro l hl
      rcases List.mem_cons.mp hl with heq | hm
      · rw [heq, linkInv]
        obtain ⟨hfix, hsp, hsc⟩ := negotiate_props hop.1 hop.2 hne
        simp only [Bool.and_eq_true]
        exact ⟨⟨⟨⟨hop.1, hop.2⟩, hfix⟩, hsp⟩, hsc⟩
      · exact List.all_eq_true.mp hg l hm
  | unlink i =>
    rw [gstep, graphInv, List.all_eq_true]
    intro l hl
    exact List.all_eq_true.mp hg l ((List.eraseIdx_sublist g.links i).subset hl)
  | renegotiate i proposal =>
    cases hgi : g.links[i]? with
    | none =>
      have he : gstep g (.renegotiate i proposal) = g := by rw [gstep, hgi]
      rw [he]
      exact hg
    | some l =>
      have hlmem : l ∈ g.links := by
        obtain ⟨hi, hv⟩ := List.getElem?_eq_some.mp hgi
        rw [← hv]
        exact List.getElem_mem hi
      have hlinv : linkInv l = true := List.all_eq_true.mp hg l hlmem
      rw [linkInv] at hlinv
      simp only [Bool.and_eq_true] at hlinv
      obtain ⟨⟨⟨⟨wfp, wfc⟩, _⟩, _⟩, _⟩ := hlinv
      have he : gstep g (.renegotiate i proposal) =
          { links := g.links.set i (renegotiateLink l proposal).1,
            bus := g.bus ++ (renegotiateLink l proposal).2.toList } := by
        rw [gstep, hgi]
      rw [he, graphInv, List.all_eq_true]
      intro l2 hl2
      rcases List.mem_or_eq_of_mem_set hl2 with hm | heq
      · exact List.all_eq_true.mp hg l2 hm
      · rw [heq, renegotiateLink]
        cases hI : capsInter proposal
            (capsInter l.producer.template l.consumer.template) with
        | nil =>
          exact List.all_eq_true.mp hg l hlmem
        | cons r rest =>
          have hwI : wfCaps (capsInter l.producer.template l.consumer.template) = true :=
            wfCaps_capsInter wfp wfc
          have hrmem : r ∈ capsInter proposal
              (capsInter l.producer.template l.consumer.template) := by
            rw [hI]
            simp
          obtain ⟨hwr, _, hsb⟩ := capsInter_rec hop hwI hrmem
          obtain ⟨ab, habI, hsab⟩ := hsb
          obtain ⟨_, hsta, hstb⟩ := capsInter_rec wfp wfc habI
          have hsubp : ∃ a ∈ l.producer.template, SubRec r a := by
            obtain ⟨a, ha, hs⟩ := hsta
            exact ⟨a, ha, SubRec_trans hsab hs⟩
          have hsubc : ∃ a ∈ l.consumer.template, SubRec r a := by
            obtain ⟨a, ha, hs⟩ := hstb
            exact ⟨a, ha, SubRec_trans hsab hs⟩
          rw [linkInv]
          simp only [Bool.and_eq_true]
          exact ⟨⟨⟨⟨wfp, wfc⟩, fixateRecord_fixed hwr⟩, fixed_caps_sub hwr hsubp⟩,
            fixed_caps_sub hwr hsubc⟩

/-- Does a posting time fall within the deadline (`none` means forever)? -/
def withinDl : Option Nat → Nat → Bool
  | none, _ => true
  | some d, t => decide (t ≤ d)

/-- Modelled from the spec: the bus wait operation (§4.7): scan the pending
messages in posting order; return the earliest one whose type matches the
mask and was posted within the deadline, leaving all non-matching messages
in place; reaching a message posted after the deadline means the wait timed
out first and returns null. -/
def busWait (mask : MsgKind → Bool) (dl : Option Nat) :
    List CoreMsg → Option CoreMsg × List CoreMsg
  | [] => (none, [])
  | m :: rest =>
    if withinDl dl m.time then
      if mask m.kind then (some m, rest)
      else ((busWait mask dl rest).1, m :: (busWait mask dl rest).2)
    else (none, m :: rest)

theorem busWait_found {mask : MsgKind → Bool} {dl : Option Nat} {bus : List CoreMsg}
    {m : CoreMsg} (h : (busWait mask dl bus).1 = some m) :
    mask m.kind = true ∧ withinDl dl m.time = true ∧ m ∈ bus := by
  induction bus with
  | nil => simp [busWait] at h
  | cons m0 rest ih =>
    rw [busWait] at h
    by_cases h1 : withinDl dl m0.time = true
    · rw [if_pos h1] at h
      by_cases h2 : mask m0.kind = true
      · rw [if_pos h2] at h
        have he := Option.some.inj h
        rw [← he]
        exact ⟨h2, h1, by simp⟩
      · rw [if_neg h2] at h
        obtain ⟨ha, hb, hc⟩ := ih h
        exact ⟨ha, hb, by simp [hc]⟩
    · rw [if_neg h1] at h
      exact Option.noConfusion h

theorem busWait_earliest (mask : MsgKind → Bool) (dl : Option Nat) (bus : List CoreMsg) :
    (busWait mask dl bus).1 =
      (bus.takeWhile fun m => withinDl dl m.time).find? fun m => mask m.kind := by
  induction bus with
  | nil => rfl
  | cons m0 rest ih =>
    rw [busWait]
    by_cases h1 : withinDl dl m0.time = true
    · rw [if_pos h1, List.takeWhile_cons, if_pos h1]
      by_cases h2 : mask m0.kind = true
      · rw [if_pos h2,
          @List.find?_cons_of_pos CoreMsg (fun m => mask m.kind) m0
            (List.takeWhile (fun m => withinDl dl m.time) rest) h2]
      · rw [if_neg h2,
          @List.find?_cons_of_neg CoreMsg (fun m => mask m.kind) m0
            (List.takeWhile (fun m => withinDl dl m.time) rest) h2]
        exact ih
    · rw [if_neg h1, List.takeWhile_cons, if_neg h1]
      rfl

theorem busWait_timeout {mask : MsgKind → Bool} {dl : Option Nat} {bus : List CoreMsg}
    (h : (busWait mask dl bus).1 = none) : (busWait mask dl bus).2 = bus := by
  induction bus with
  | nil => rfl
  | cons m0 rest ih =>
    rw [busWait] at h ⊢
    by_cases h1 : withinDl dl m0.time = true
    · rw [if_pos h1] at h ⊢
      by_cases h2 : mask m0.kind = true
      · rw [if_pos h2] at h
        exact Option.noConfusion h
      · rw [if_neg h2] at h ⊢
        show m0 :: (busWait mask dl rest).2 = m0 :: rest
        rw [ih h]
    · rw [if_neg h1]
  
theorem busWait_keeps (mask : MsgKind → Bool) (dl : Option Nat) (bus : List CoreMsg) :
    ((busWait mask dl bus).2.filter fun m => !mask m.kind) =
      bus.filter fun m => !mask m.kind := by
  induction bus with
  | nil => rfl
  | cons m0 rest ih =>
    rw [busWait]
    by_cases h1 : withinDl dl m0.time = true
    · rw [if_pos h1]
      by_cases h2 : mask m0.kind = true
      · rw [if_pos h2]
        show rest.filter _ = (m0 :: rest).filter _
        rw [List.filter_cons_of_neg (by simp [h2])]
      · rw [if_neg h2]
        show (m0 :: (busWait mask dl rest).2).filter _ = (m0 :: rest).filter _
        rw [List.filter_cons_of_pos (by simp [h2]), List.filter_cons_of_pos (by simp [h2]), ih]
    · rw [if_neg h1]

theorem busWait_sublist (mask : MsgKind → Bool) (dl : Option Nat) (bus : List CoreMsg) :
    List.Sublist (busWait mask dl bus).2 bus := by
  induction bus with
  | nil => exact List.Sublist.refl _
  | cons m0 rest ih =>
    rw [busWait]
    by_cases h1 : withinDl dl m0.time = true
    · rw [if_pos h1]
      by_cases h2 : mask m0.kind = true
      · rw [if_pos h2]
        exact List.sublist_cons_self _ _
      · rw [if_neg h2]
        exact List.Sublist.cons₂ _ ih
    · rw [if_neg h1]

/-- Operations observed at a queue node: an upstream push into the FIFO, a
worker delivery downstream, or a flush (downward state transition). -/
inductive QOp where
  | push (b : Nat)
  | deliver
  | flush
deriving DecidableEq

structure QState where
  fifo : List Nat
  out : List Nat
deriving DecidableEq

/-- Modelled from the spec: queue dataflow (§4.4): the consuming port
enqueues at the tail; the worker dequeues from the head and pushes
downstream; a flush discards the FIFO contents. -/
def qstep (s : QState) : QOp → QState
  | .push b => { s with fifo := s.fifo ++ [b] }
  | .deliver =>
    match s.fifo with
    | [] => s
    | b :: rest => { fifo := rest, out := s.out ++ [b] }
  | .flush => { s with fifo := [] }

def pushedOf (ops : List QOp) : List Nat :=
  ops.filterMap fun op =>
    match op with
    | .push b => some b
    | _ => none

theorem qrun_inv (ops : List QOp) (s : QState) (h : ∀ op ∈ ops, op ≠ QOp.flush) :
    (List.foldl qstep s ops).out ++ (List.foldl qstep s ops).fifo =
      s.out ++ s.fifo ++ pushedOf ops := by
  induction ops generalizing s with
  | nil => simp [pushedOf]
  | cons op rest ih =>
    rw [List.foldl_cons]
    have hr := ih (qstep s op) (fun o ho => h o (List.mem_cons_of_mem _ ho))
    rw [hr]
    cases op with
    | push b => simp [qstep, pushedOf]
    | deliver =>
      cases hf : s.fifo with
      | nil => simp [qstep, hf, pushedOf]
      | cons b rest2 => simp [qstep, hf, pushedOf]
    | flush => exact absurd rfl (h QOp.flush (by simp))

/-- Result of pushing a buffer to one tee branch. -/
inductive PushRes where
  | ok
  | nonfatal
  | fatal
deriving DecidableEq

structure TeeBranch where
  id : Nat
  res : PushRes
deriving DecidableEq

structure TeePush where
  branch : Nat
  buffer : Nat
  res : PushRes
deriving DecidableEq

/-- Modelled from the spec: tee fan-out (§4.5): on buffer arrival the tee
forwards the same buffer (a reference-counted share, no copy) to each linked
producing port in turn; a non-fatal branch error is logged and the remaining
branches still receive the buffer; the first fatal error stops the loop and
propagates upstream. -/
def teeRun : List TeeBranch → Nat → List TeePush
  | [], _ => []
  | br :: rest, buf =>
    match br.res with
    | .fatal => [⟨br.id, buf, br.res⟩]
    | _ => ⟨br.id, buf, br.res⟩ :: teeRun rest buf

/-- Lifecycle states (§4.3), in their total order. -/
inductive GstState where
  | null
  | ready
  | paused
  | playing
deriving DecidableEq, Fintype

def stateIdx : GstState → Nat
  | .null => 0
  | .ready => 1
  | .paused => 2
  | .playing => 3

def nextUp : GstState → Option GstState
  | .null => some .ready
  | .ready => some .paused
  | .paused => some .playing
  | .playing => none

def nextDown : GstState → Option GstState
  | .null => none
  | .ready => some .null
  | .paused => some .ready
  | .playing => some .paused

def stepTowards (cur target : GstState) : Option GstState :=
  if stateIdx cur < stateIdx target then nextUp cur
  else if stateIdx target < stateIdx cur then nextDown cur
  else none

def setStateGo : Nat → GstState → GstState → List (GstState × GstState)
  | 0, _, _ => []
  | Nat.succ fuel, cur, target =>
    match stepTowards cur target with
    | none => []
    | some nxt => (cur, nxt) :: setStateGo fuel nxt target

/-- Modelled from the spec: a set-state request walks the total order one
step at a time (§4.3); the returned list is the sequence of state-changed
notifications (old, new) the transition produces.  Three steps of fuel
suffice for the four-state ladder. -/
def set_state (cur target : GstState) : List (GstState × GstState) :=
  setStateGo 3 cur target

end GstCore

namespace Tut4

/-- Nanoseconds per second (GST_SECOND). -/
def GST_SECOND : Int := 1000000000

/-- The unknown-time sentinel GST_CLOCK_TIME_NONE (all 64 bits set) as it
reads back from the signed 64-bit duration field of CustomData: -1. -/
def GST_CLOCK_TIME_NONE : Int := -1

/-- CustomData of basic-tutorial-4.c (lines 24-31). -/
structure CustomData where
  playing : Bool
  terminate : Bool
  seek_enabled : Bool
  seek_done : Bool
  duration : Int
deriving DecidableEq

/-- The message kinds the filtered bus pop of basic-tutorial-4.c can hand to
handle_message, plus a default for the unexpected-message branch.  A
state-changed message carries whether its source is the playbin and the
parsed old and new states. -/
inductive GstMessage where
  | error
  | eos
  | durationChanged
  | stateChanged (srcIsPlaybin : Bool) (oldState newState : GstCore.GstState)
  | other
deriving DecidableEq

/-- Environment answer to the seeking query issued on entering PLAYING
(lines 174-189): whether gst_element_query succeeded and the parsed
seek-enabled flag. -/
structure SeekQuery where
  ok : Bool
  enabled : Bool
deriving DecidableEq

/-- handle_message of basic-tutorial-4.c (lines 142-203): ERROR and EOS set
terminate; DURATION invalidates the cached duration; STATE_CHANGED from the
playbin records whether we are PLAYING and, if so, runs the seeking query;
anything else only prints. -/
def handle_message (d : CustomData) (msg : GstMessage) (sq : SeekQuery) : CustomData :=
  match msg with
  | .error => { d with terminate := true }
  | .eos => { d with terminate := true }
  | .durationChanged => { d with duration := GST_CLOCK_TIME_NONE }
  | .stateChanged srcIsPlaybin _ newState =>
    if srcIsPlaybin then
      if decide (newState = GstCore.GstState.playing) then
        if sq.ok then { d with playing := true, seek_enabled := sq.enabled }
        else { d with playing := true }
      else { d with playing := false }
    else d
  | .other => d

/-- Environment answers to the position and duration queries issued in the
timeout branch of the main loop. -/
structure TimeoutEnv where
  posOk : Bool
  pos : Int
  durOk : Bool
  dur : Int
deriving DecidableEq

/-- The value of `current` after the position query (lines 88-94): it is
initialised to -1 and written only when the query succeeds. -/
def currentOf (env : TimeoutEnv) : Int := if env.posOk then env.pos else -1

/-- The duration re-query of the timeout branch (lines 96-101): only while
the cached duration is invalid, and the cache is written only when the query
succeeds. -/
def updateDuration (d : CustomData) (env : TimeoutEnv) : CustomData :=
  if d.duration = GST_CLOCK_TIME_NONE then
    (if env.durOk then { d with duration := env.dur } else d)
  else d

/-- The timeout branch of the main loop (lines 85-131): when playing, query
the position; re-query the duration only while the cached one is invalid;
then seek (once) when seeking is enabled, not yet done, and the position
passed 10 seconds.  The Bool reports whether gst_element_seek_simple was
called in this iteration. -/
def stepTimeout (d : CustomData) (env : TimeoutEnv) : CustomData × Bool :=
  if d.playing then
    if (updateDuration d env).seek_enabled && !(updateDuration d env).seek_done &&
        decide (currentOf env > 10 * GST_SECOND) then
      ({ updateDuration d env with seek_done := true }, true)
    else (updateDuration d env, false)
  else (d, false)

/-- One iteration of the do-while loop (lines 73-132): either a message was
popped and handled, or the 100 ms timeout expired. -/
inductive LoopInput where
  | msg (m : GstMessage) (sq : SeekQuery)
  | timeout (env : TimeoutEnv)
deriving DecidableEq

def loopStep (d : CustomData) : LoopInput → CustomData × Bool
  | .msg m sq => (handle_message d m sq, false)
  | .timeout env => stepTimeout d env

/-- Run the do-while loop over a trace of inputs, stopping as the loop does
when terminate becomes true; counts the seeks issued. -/
def runLoop : CustomData → List LoopInput → CustomData × Nat
  | d, [] => (d, 0)
  | d, i :: rest =>
    if (loopStep d i).1.terminate then
      ((loopStep d i).1, if (loopStep d i).2 then 1 else 0)
    else
      ((runLoop (loopStep d i).1 rest).1,
        (if (loopStep d i).2 then 1 else 0) + (runLoop (loopStep d i).1 rest).2)

/-- main's initialisation of CustomData (lines 42-46). -/
def initialData : CustomData :=
  { playing := false, terminate := false, seek_enabled := false,
    seek_done := false, duration := GST_CLOCK_TIME_NONE }

/-- Inputs whose handling sets the terminate flag. -/
def isTerminalMsg : LoopInput → Bool
  | .msg .error _ => true
  | .msg .eos _ => true
  | _ => false

theorem handle_message_seek_done (d : CustomData) (m : GstMessage) (sq : SeekQuery) :
    (handle_message d m sq).seek_done = d.seek_done := by
  cases m with
  | stateChanged src old new =>
    rw [handle_message]
    split_ifs <;> rfl
  | _ => rfl

theorem updateDuration_seek_done (d : CustomData) (env : TimeoutEnv) :
    (updateDuration d env).seek_done = d.seek_done := by
  rw [updateDuration]
  split_ifs <;> rfl

theorem updateDuration_seek_enabled (d : CustomData) (env : TimeoutEnv) :
    (updateDuration d env).seek_enabled = d.seek_enabled := by
  rw [updateDuration]
  split_ifs <;> rfl

theorem updateDuration_terminate (d : CustomData) (env : TimeoutEnv) :
    (updateDuration d env).terminate = d.terminate := by
  rw [updateDuration]
  split_ifs <;> rfl

theorem stepTimeout_seek_done {d : CustomData} {env : TimeoutEnv}
    (h : d.seek_done = true) : (stepTimeout d env).1.seek_done = true := by
  rw [stepTimeout]
  split_ifs with h1 h2
  · rfl
  · rw [updateDuration_seek_done]
    exact h
  · exact h

theorem loopStep_seek_done {d : CustomData} {i : LoopInput}
    (h : d.seek_done = true) : (loopStep d i).1.seek_done = true := by
  cases i with
  | msg m sq => rw [loopStep, handle_message_seek_done]; exact h
  | timeout env => exact stepTimeout_seek_done h

theorem stepTimeout_seeks {d : CustomData} {env : TimeoutEnv}
    (h : (stepTimeout d env).2 = true) :
    d.seek_done = false ∧ (stepTimeout d env).1.seek_done = true := by
  rw [stepTimeout] at h ⊢
  by_cases hp : d.playing = true
  · rw [if_pos hp] at h ⊢
    by_cases hg : ((updateDuration d env).seek_enabled && !(updateDuration d env).seek_done &&
        decide (currentOf env > 10 * GST_SECOND)) = true
    · rw [if_pos hg]
      refine ⟨?_, rfl⟩
      simp only [Bool.and_eq_true, Bool.not_eq_true'] at hg
      rw [← updateDuration_seek_done d env]
      exact hg.1.2
    · rw [if_neg hg] at h
      exact Bool.noConfusion h
  · rw [if_neg hp] at h
    exact Bool.noConfusion h

theorem loopStep_seeks {d : CustomData} {i : LoopInput}
    (h : (loopStep d i).2 = true) :
    d.seek_done = false ∧ (loopStep d i).1.seek_done = true := by
  cases i with
  | msg m sq => rw [loopStep] at h; exact Bool.noConfusion h
  | timeout env => exact stepTimeout_seeks h

theorem runLoop_no_seek (inputs : List LoopInput) (d : CustomData)
    (h : d.seek_done = true) : (runLoop d inputs).2 = 0 := by
  induction inputs generalizing d with
  | nil => rfl
  | cons i rest ih =>
    have hs : (loopStep d i).2 = false := by
      cases hb : (loopStep d i).2 with
      | false => rfl
      | true =>
        have hc := (loopStep_seeks hb).1
        rw [h] at hc
        exact Bool.noConfusion hc
    cases ht : (loopStep d i).1.terminate with
    | true =>
      rw [runLoop, if_pos ht, hs]
      simp
    | false =>
      rw [runLoop, if_neg (by simp [ht])]
      show (if (loopStep d i).2 = true then 1 else 0) + (runLoop (loopStep d i).1 rest).2 = 0
      rw [hs, ih _ (loopStep_seek_done h)]
      simp

theorem runLoop_le_one (inputs : List LoopInput) (d : CustomData) :
    (runLoop d inputs).2 ≤ 1 := by
  induction inputs generalizing d with
  | nil => simp [runLoop]
  | cons i rest ih =>
    cases ht : (loopStep d i).1.terminate with
    | true =>
      rw [runLoop, if_pos ht]
      show (if (loopStep d i).2 = true then 1 else 0) ≤ 1
      split_ifs <;> simp
    | false =>
      rw [runLoop, if_neg (by simp [ht])]
      show (if (loopStep d i).2 = true then 1 else 0) + (runLoop (loopStep d i).1 rest).2 ≤ 1
      cases hb : (loopStep d i).2 with
      | false => simpa using ih (loopStep d i).1
      | true =>
        rw [runLoop_no_seek rest _ (loopStep_seeks hb).2]
        simp

theorem stepTimeout_seek_iff (d : CustomData) (env : TimeoutEnv) :
    (stepTimeout d env).2 = true ↔
      (d.playing = true ∧ d.seek_enabled = true ∧ d.seek_done = false ∧
        currentOf env > 10 * GST_SECOND) := by
  rw [stepTimeout]
  by_cases hp : d.playing = true
  · rw [if_pos hp]
    by_cases hg : ((updateDuration d env).seek_enabled && !(updateDuration d env).seek_done &&
        decide (currentOf env > 10 * GST_SECOND)) = true
    · rw [if_pos hg]
      constructor
      · intro _
        simp only [Bool.and_eq_true, Bool.not_eq_true', decide_eq_true_eq] at hg
        refine ⟨hp, ?_, ?_, hg.2⟩
        · rw [← updateDuration_seek_enabled d env]
          exact hg.1.1
        · rw [← updateDuration_seek_done d env]
          exact hg.1.2
      · intro _
        rfl
    · rw [if_neg hg]
      constructor
      · intro hh
        exact Bool.noConfusion hh
      · rintro ⟨_, h2, h3, h4⟩
        exfalso
        apply hg
        simp only [Bool.and_eq_true, Bool.not_eq_true', decide_eq_true_eq]
        refine ⟨⟨?_, ?_⟩, h4⟩
        · rw [updateDuration_seek_enabled]
          exact h2
        · rw [updateDuration_seek_done]
          exact h3
  · rw [if_neg hp]
    constructor
    · intro hh
      exact Bool.noConfusion hh
    · rintro ⟨h1, _⟩
      exact absurd h1 hp

theorem stepTimeout_duration {d : CustomData} {env : TimeoutEnv}
    (h : (stepTimeout d env).1.duration ≠ d.duration) :
    d.playing = true ∧ d.duration = GST_CLOCK_TIME_NONE ∧ env.durOk = true ∧
      (stepTimeout d env).1.duration = env.dur := by
  by_cases hp : d.playing = true
  · have hdd : (stepTimeout d env).1.duration = (updateDuration d env).duration := by
      rw [stepTimeout, if_pos hp]
      split_ifs <;> rfl
    rw [hdd] at h ⊢
    rw [updateDuration] at h ⊢
    by_cases h1 : d.duration = GST_CLOCK_TIME_NONE
    · rw [if_pos h1] at h ⊢
      by_cases h2 : env.durOk = true
      · rw [if_pos h2] at h ⊢
        exact ⟨hp, h1, h2, rfl⟩
      · rw [if_neg h2] at h
        exact absurd rfl h
    · rw [if_neg h1] at h
      exact absurd rfl h
  · rw [stepTimeout, if_neg hp] at h
    exact absurd rfl h

theorem loopStep_terminate (d : CustomData) (i : LoopInput) :
    (loopStep d i).1.terminate = (d.terminate || isTerminalMsg i) := by
  cases i with
  | msg m sq =>
    cases m with
    | error => simp [loopStep, handle_message, isTerminalMsg]
    | eos => simp [loopStep, handle_message, isTerminalMsg]
    | durationChanged => simp [loopStep, handle_message, isTerminalMsg]
    | stateChanged src old new =>
      show (handle_message d (.stateChanged src old new) sq).terminate = _
      rw [handle_message]
      split_ifs <;> simp [isTerminalMsg]
    | other => simp [loopStep, handle_message, isTerminalMsg]
  | timeout env =>
    have hterm : (stepTimeout d env).1.terminate = d.terminate := by
      rw [stepTimeout]
      split_ifs with h1 h2
      · show (updateDuration d env).terminate = d.terminate
        exact updateDuration_terminate d env
      · exact updateDuration_terminate d env
      · rfl
    show (stepTimeout d env).1.terminate = _
    rw [hterm]
    simp [isTerminalMsg]

theorem runLoop_terminate_false (inputs : List LoopInput) (d : CustomData)
    (hd : d.terminate = false) (h : ∀ i ∈ inputs, isTerminalMsg i = false) :
    (runLoop d inputs).1.terminate = false := by
  induction inputs generalizing d with
  | nil => exact hd
  | cons i rest ih =>
    have ht : (loopStep d i).1.terminate = false := by
      rw [loopStep_terminate, hd, h i (by simp)]
      rfl
    rw [runLoop, if_neg (by simp [ht])]
    show (runLoop (loopStep d i).1 rest).1.terminate = false
    exact ih _ ht (fun j hj => h j (List.mem_cons_of_mem _ hj))

end Tut4

namespace GstCore

theorem fixateField_idem (v : FieldValue) : fixateField (fixateField v) = fixateField v := by
  cases v with
  | scalar a => rfl
  | range lo hi => rfl
  | list vs => cases vs <;> rfl

theorem fixateRecord_idem (r : GstStructure) :
    fixateRecord (fixateRecord r) = fixateRecord r := by
  rw [fixateRecord, fixateRecord]
  simp only [List.map_map]
  congr 1
  apply List.map_congr_left
  intro p _
  show (p.1, fixateField (fixateField p.2)) = (p.1, fixateField p.2)
  rw [fixateField_idem]

theorem fixate_idem (A : List GstStructure) : fixate (fixate A) = fixate A := by
  cases A with
  | nil => rfl
  | cons r rest =>
    show fixate [fixateRecord r] = [fixateRecord r]
    rw [fixate, fixateRecord_idem]

theorem teeRun_branches (bs : List TeeBranch) (buf : Nat)
    (h : ∀ br ∈ bs, br.res ≠ PushRes.fatal) :
    (teeRun bs buf).map TeePush.branch = bs.map TeeBranch.id := by
  induction bs with
  | nil => rfl
  | cons br rest ih =>
    rw [teeRun]
    cases hres : br.res with
    | fatal => exact absurd hres (h br (by simp))
    | ok =>
      show List.map TeePush.branch (⟨br.id, buf, PushRes.ok⟩ :: teeRun rest buf) = _
      rw [List.map_cons, List.map_cons, ih (fun b hb => h b (List.mem_cons_of_mem _ hb))]
    | nonfatal =>
      show List.map TeePush.branch (⟨br.id, buf, PushRes.nonfatal⟩ :: teeRun rest buf) = _
      rw [List.map_cons, List.map_cons, ih (fun b hb => h b (List.mem_cons_of_mem _ hb))]

theorem teeRun_buffer (bs : List TeeBranch) (buf : Nat) :
    ∀ p ∈ teeRun bs buf, p.buffer = buf := by
  induction bs with
  | nil => simp [teeRun]
  | cons br rest ih =>
    rw [teeRun]
    cases hres : br.res with
    | fatal =>
      intro p hp
      rw [List.mem_singleton] at hp
      rw [hp]
    | ok =>
      intro p hp
      rcases List.mem_cons.mp hp with he | hm
      · rw [he]
      · exact ih p hm
    | nonfatal =>
      intro p hp
      rcases List.mem_cons.mp hp with he | hm
      · rw [he]
      · exact ih p hm

end GstCore

/-- C1: for every link in the graph the negotiated format is fixed and a
subset of both port templates (along with well-formedness of the retained
templates); the invariant holds after every successful link operation and is
preserved by every subsequent operation, including renegotiation. -/
theorem claim_C1_link_invariant (g : GstCore.Graph) (ops : List GstCore.GraphOp)
    (hg : GstCore.graphInv g = true) (hwf : ∀ op ∈ ops, GstCore.opWF op = true) :
    GstCore.graphInv (List.foldl GstCore.gstep g ops) = true := by
  induction ops generalizing g with
  | nil => exact hg
  | cons op rest ih =>
    rw [List.foldl_cons]
    exact ih _ (GstCore.gstep_inv hg (hwf op (by simp)))
      (fun o ho => hwf o (List.mem_cons_of_mem _ ho))

theorem claim_C1_link_invariant_witness :
    GstCore.graphInv (List.foldl GstCore.gstep ⟨[], []⟩
      [GstCore.GraphOp.link ⟨0, [⟨5, [(1, GstCore.FieldValue.range 1 9)]⟩]⟩
        ⟨1, [⟨5, [(1, GstCore.FieldValue.scalar 4)]⟩]⟩]) = true :=
  claim_C1_link_invariant ⟨[], []⟩ _ (by decide) (by decide)

/-- C2: between two flush events a queue is strict FIFO: the buffers the
worker has delivered downstream followed by those still queued are exactly
the pushed sequence, in order, with no buffer lost or duplicated; in
particular once the worker drains the FIFO the delivered sequence equals the
pushed sequence. -/
theorem claim_C2_queue_fifo (ops : List GstCore.QOp)
    (h : ∀ op ∈ ops, op ≠ GstCore.QOp.flush) :
    (List.foldl GstCore.qstep ⟨[], []⟩ ops).out ++
      (List.foldl GstCore.qstep ⟨[], []⟩ ops).fifo = GstCore.pushedOf ops := by
  have hq := GstCore.qrun_inv ops ⟨[], []⟩ h
  simpa using hq

theorem claim_C2_queue_fifo_witness :
    (List.foldl GstCore.qstep ⟨[], []⟩
        [GstCore.QOp.push 7, GstCore.QOp.push 8, GstCore.QOp.deliver,
         GstCore.QOp.push 9, GstCore.QOp.deliver]).out ++
      (List.foldl GstCore.qstep ⟨[], []⟩
        [GstCore.QOp.push 7, GstCore.QOp.push 8, GstCore.QOp.deliver,
         GstCore.QOp.push 9, GstCore.QOp.deliver]).fifo =
      GstCore.pushedOf
        [GstCore.QOp.push 7, GstCore.QOp.push 8, GstCore.QOp.deliver,
         GstCore.QOp.push 9, GstCore.QOp.deliver] :=
  claim_C2_queue_fifo _ (by decide)

/-- C3: a tee forwards each arriving buffer exactly once to every linked
producing port, as the same shared buffer (no copy), and a non-fatal push
error on one branch does not prevent delivery to the remaining branches. -/
theorem claim_C3_tee_fanout (bs : List GstCore.TeeBranch) (buf : Nat)
    (h : ∀ br ∈ bs, br.res ≠ GstCore.PushRes.fatal) :
    ((GstCore.teeRun bs buf).map GstCore.TeePush.branch = bs.map GstCore.TeeBranch.id) ∧
    (∀ p ∈ GstCore.teeRun bs buf, p.buffer = buf) ∧
    ((bs.map GstCore.TeeBranch.id).Nodup → ∀ br ∈ bs,
      (GstCore.teeRun bs buf).countP (fun p => p.branch == br.id) = 1) := by
  refine ⟨GstCore.teeRun_branches bs buf h, GstCore.teeRun_buffer bs buf, ?_⟩
  intro hnd br hbr
  have h1 : ((GstCore.teeRun bs buf).map GstCore.TeePush.branch).countP (fun x => x == br.id)
      = (GstCore.teeRun bs buf).countP (fun p => p.branch == br.id) :=
    List.countP_map (fun x => x == br.id) GstCore.TeePush.branch (GstCore.teeRun bs buf)
  rw [← h1, GstCore.teeRun_branches bs buf h]
  show List.count br.id (bs.map GstCore.TeeBranch.id) = 1
  exact List.count_eq_one_of_mem hnd (List.mem_map.mpr ⟨br, hbr, rfl⟩)

theorem claim_C3_tee_fanout_witness :
    (GstCore.teeRun [⟨3, GstCore.PushRes.ok⟩, ⟨4, GstCore.PushRes.nonfatal⟩,
        ⟨5, GstCore.PushRes.ok⟩] 42).countP (fun p => p.branch == 4) = 1 :=
  (claim_C3_tee_fanout [⟨3, GstCore.PushRes.ok⟩, ⟨4, GstCore.PushRes.nonfatal⟩,
      ⟨5, GstCore.PushRes.ok⟩] 42 (by decide)).2.2 (by decide)
    ⟨4, GstCore.PushRes.nonfatal⟩ (by decide)

/-- C4: lifecycle states are totally ordered NULL < READY < PAUSED < PLAYING,
every transition of a set-state walk moves exactly one step, and a set-state
request from NULL to PLAYING produces the state-changed notifications
NULL→READY, READY→PAUSED, PAUSED→PLAYING in exactly that order, skipping
no state. -/
theorem claim_C4_state_ladder :
    (GstCore.set_state GstCore.GstState.null GstCore.GstState.playing =
      [(GstCore.GstState.null, GstCore.GstState.ready),
       (GstCore.GstState.ready, GstCore.GstState.paused),
       (GstCore.GstState.paused, GstCore.GstState.playing)]) ∧
    (GstCore.stateIdx GstCore.GstState.null < GstCore.stateIdx GstCore.GstState.ready ∧
     GstCore.stateIdx GstCore.GstState.ready < GstCore.stateIdx GstCore.GstState.paused ∧
     GstCore.stateIdx GstCore.GstState.paused < GstCore.stateIdx GstCore.GstState.playing) ∧
    (∀ cur target : GstCore.GstState, ∀ p ∈ GstCore.set_state cur target,
      GstCore.stateIdx p.2 = GstCore.stateIdx p.1 + 1 ∨
        GstCore.stateIdx p.1 = GstCore.stateIdx p.2 + 1) :=
  ⟨by decide, by decide, by decide⟩

theorem claim_C4_state_ladder_witness :
    GstCore.stateIdx (GstCore.GstState.null, GstCore.GstState.ready).2 =
        GstCore.stateIdx (GstCore.GstState.null, GstCore.GstState.ready).1 + 1 ∨
      GstCore.stateIdx (GstCore.GstState.null, GstCore.GstState.ready).1 =
        GstCore.stateIdx (GstCore.GstState.null, GstCore.GstState.ready).2 + 1 :=
  claim_C4_state_ladder.2.2 GstCore.GstState.null GstCore.GstState.playing
    (GstCore.GstState.null, GstCore.GstState.ready) (by decide)

/-- C5: a bus wait with a type mask and a deadline returns the earliest
pending message posted within the deadline whose type matches the mask, or
null on timeout (which leaves the queue untouched); any returned message
matched the mask and lay within the deadline; non-matching messages are
never discarded and keep their total posting order, so a later wait with a
wider mask still receives them in order. -/
theorem claim_C5_bus_wait (mask : GstCore.MsgKind → Bool) (dl : Option Nat)
    (bus : List GstCore.CoreMsg) :
    ((GstCore.busWait mask dl bus).1 =
      (bus.takeWhile fun m => GstCore.withinDl dl m.time).find? fun m => mask m.kind) ∧
    (∀ m, (GstCore.busWait mask dl bus).1 = some m →
      mask m.kind = true ∧ GstCore.withinDl dl m.time = true ∧ m ∈ bus) ∧
    ((GstCore.busWait mask dl bus).1 = none → (GstCore.busWait mask dl bus).2 = bus) ∧
    (((GstCore.busWait mask dl bus).2.filter fun m => !mask m.kind) =
      bus.filter fun m => !mask m.kind) ∧
    List.Sublist (GstCore.busWait mask dl bus).2 bus :=
  ⟨GstCore.busWait_earliest mask dl bus, fun _ h => GstCore.busWait_found h,
    fun h => GstCore.busWait_timeout h, GstCore.busWait_keeps mask dl bus,
    GstCore.busWait_sublist mask dl bus⟩

theorem claim_C5_bus_wait_witness :
    (fun k => match k with | GstCore.MsgKind.error => true
                           | GstCore.MsgKind.eos => true
                           | _ => false) GstCore.MsgKind.error = true ∧
    GstCore.withinDl (some 10) 2 = true ∧
    (⟨GstCore.MsgKind.error, 2⟩ : GstCore.CoreMsg) ∈
      [(⟨GstCore.MsgKind.stateChanged, 1⟩ : GstCore.CoreMsg), ⟨GstCore.MsgKind.error, 2⟩] :=
  (claim_C5_bus_wait
      (fun k => match k with | GstCore.MsgKind.error => true
                             | GstCore.MsgKind.eos => true
                             | _ => false)
      (some 10)
      [⟨GstCore.MsgKind.stateChanged, 1⟩, ⟨GstCore.MsgKind.error, 2⟩]).2.1
    ⟨GstCore.MsgKind.error, 2⟩ (by decide)

/-- C6: when the templates of two ports have an empty intersection, the link
attempt fails synchronously with negotiation-impossible (a null result) and
leaves the graph, including its bus, unchanged: no message is posted. -/
theorem claim_C6_link_failure (g : GstCore.Graph) (p c : GstCore.CorePort)
    (h : GstCore.capsInter p.template c.template = []) :
    GstCore.negotiate p.template c.template = none ∧
    GstCore.linkPorts g p c = (none, g) := by
  have hn : GstCore.negotiate p.template c.template = none := by
    rw [GstCore.negotiate, h]
  refine ⟨hn, ?_⟩
  rw [GstCore.linkPorts, hn]

theorem claim_C6_link_failure_witness :
    GstCore.negotiate [⟨5, []⟩] [⟨6, []⟩] = none ∧
    GstCore.linkPorts ⟨[], []⟩ ⟨0, [⟨5, []⟩]⟩ ⟨1, [⟨6, []⟩]⟩ =
      (none, (⟨[], []⟩ : GstCore.Graph)) :=
  claim_C6_link_failure ⟨[], []⟩ ⟨0, [⟨5, []⟩]⟩ ⟨1, [⟨6, []⟩]⟩ (by decide)

/-- C7: descriptor intersection is commutative and associative, and fixation
is idempotent and deterministic, picking the documented canonical
representative: the minimum of a range, the first element of a list, and the
preferred (first) media-type record of the descriptor. -/
theorem claim_C7_caps_algebra :
    (∀ A B : List GstCore.GstStructure, GstCore.capsInter A B = GstCore.capsInter B A) ∧
    (∀ A B C : List GstCore.GstStructure,
      GstCore.capsInter (GstCore.capsInter A B) C =
        GstCore.capsInter A (GstCore.capsInter B C)) ∧
    (∀ A : List GstCore.GstStructure, GstCore.fixate (GstCore.fixate A) = GstCore.fixate A) ∧
    (∀ lo hi : ℚ, GstCore.fixateField (GstCore.FieldValue.range lo hi) =
      GstCore.FieldValue.scalar lo) ∧
    (∀ (v : ℚ) (vs : List ℚ), GstCore.fixateField (GstCore.FieldValue.list (v :: vs)) =
      GstCore.FieldValue.scalar v) ∧
    (∀ (r : GstCore.GstStructure) (rest : List GstCore.GstStructure),
      GstCore.fixate (r :: rest) = [GstCore.fixateRecord r]) :=
  ⟨GstCore.capsInter_comm, GstCore.capsInter_assoc, GstCore.fixate_idem,
    fun _ _ => rfl, fun _ _ => rfl, fun _ _ => rfl⟩

/-- C8: in basic-tutorial-4, a duration-changed message only invalidates the
cached duration by setting it to the unknown sentinel GST_CLOCK_TIME_NONE —
the handler queries nothing — and the cached duration changes again only in
a bus-wait timeout iteration while the pipeline is PLAYING, where the value
comes from a successful duration query issued only while the cache was
invalid. -/
theorem claim_C8_duration_requery (d : Tut4.CustomData) (env : Tut4.TimeoutEnv) :
    (∀ (d2 : Tut4.CustomData) (sq : Tut4.SeekQuery),
      Tut4.handle_message d2 Tut4.GstMessage.durationChanged sq =
        { d2 with duration := Tut4.GST_CLOCK_TIME_NONE }) ∧
    ((Tut4.stepTimeout d env).1.duration ≠ d.duration →
      d.playing = true ∧ d.duration = Tut4.GST_CLOCK_TIME_NONE ∧ env.durOk = true ∧
        (Tut4.stepTimeout d env).1.duration = env.dur) :=
  ⟨fun _ _ => rfl, fun h => Tut4.stepTimeout_duration h⟩

theorem claim_C8_duration_requery_witness :
    (⟨true, false, false, false, -1⟩ : Tut4.CustomData).playing = true ∧
    (⟨true, false, false, false, -1⟩ : Tut4.CustomData).duration =
      Tut4.GST_CLOCK_TIME_NONE ∧
    (⟨true, 0, true, 7⟩ : Tut4.TimeoutEnv).durOk = true ∧
    (Tut4.stepTimeout ⟨true, false, false, false, -1⟩ ⟨true, 0, true, 7⟩).1.duration =
      (⟨true, 0, true, 7⟩ : Tut4.TimeoutEnv).dur :=
  (claim_C8_duration_requery ⟨true, false, false, false, -1⟩ ⟨true, 0, true, 7⟩).2
    (by decide)

/-- C9: in basic-tutorial-4 at most one seek is ever issued per run: the
seek fires exactly under the conjunction playing ∧ seek_enabled ∧
¬seek_done ∧ current position > 10 seconds, seek_done is set immediately
by the seek and is never cleared by any loop step, so a run from main's
initial state performs at most one call to gst_element_seek_simple. -/
theorem claim_C9_single_seek :
    (∀ inputs : List Tut4.LoopInput, (Tut4.runLoop Tut4.initialData inputs).2 ≤ 1) ∧
    (∀ (d : Tut4.CustomData) (env : Tut4.TimeoutEnv),
      (Tut4.stepTimeout d env).2 = true ↔
        (d.playing = true ∧ d.seek_enabled = true ∧ d.seek_done = false ∧
          Tut4.currentOf env > 10 * Tut4.GST_SECOND)) ∧
    (∀ (d : Tut4.CustomData) (i : Tut4.LoopInput), d.seek_done = true →
      (Tut4.loopStep d i).1.seek_done = true) :=
  ⟨fun inputs => Tut4.runLoop_le_one inputs Tut4.initialData,
    Tut4.stepTimeout_seek_iff, fun _ _ h => Tut4.loopStep_seek_done h⟩

theorem claim_C9_single_seek_witness :
    (Tut4.loopStep ⟨true, false, true, true, 0⟩
      (Tut4.LoopInput.timeout ⟨true, 99000000000, false, 0⟩)).1.seek_done = true :=
  claim_C9_single_seek.2.2 ⟨true, false, true, true, 0⟩
    (Tut4.LoopInput.timeout ⟨true, 99000000000, false, 0⟩) (by decide)

/-- C10: in basic-tutorial-4 the terminate flag is set by a loop step
exactly when it was already set or the step handled an ERROR or EOS
message; consequently a run whose trace contains no error and no
end-of-stream message never terminates the loop by itself — timeouts,
state-changed and duration-changed messages leave terminate false. -/
theorem claim_C10_loop_termination :
    (∀ (d : Tut4.CustomData) (i : Tut4.LoopInput),
      (Tut4.loopStep d i).1.terminate = (d.terminate || Tut4.isTerminalMsg i)) ∧
    (∀ (inputs : List Tut4.LoopInput) (d : Tut4.CustomData), d.terminate = false →
      (∀ i ∈ inputs, Tut4.isTerminalMsg i = false) →
      (Tut4.runLoop d inputs).1.terminate = false) :=
  ⟨Tut4.loopStep_terminate, fun inputs d hd h => Tut4.runLoop_terminate_false inputs d hd h⟩

theorem claim_C10_loop_termination_witness :
    (Tut4.runLoop Tut4.initialData
      [Tut4.LoopInput.timeout ⟨false, 0, false, 0⟩,
       Tut4.LoopInput.msg Tut4.GstMessage.durationChanged ⟨false, false⟩,
       Tut4.LoopInput.msg
         (Tut4.GstMessage.stateChanged true GstCore.GstState.paused GstCore.GstState.playing)
         ⟨true, true⟩]).1.terminate = false :=
  claim_C10_loop_termination.2
    [Tut4.LoopInput.timeout ⟨false, 0, false, 0⟩,
     Tut4.LoopInput.msg Tut4.GstMessage.durationChanged ⟨false, false⟩,
     Tut4.LoopInput.msg
       (Tut4.GstMessage.stateChanged true GstCore.GstState.paused GstCore.GstState.playing)
       ⟨true, true⟩]
    Tut4.initialData (by decide) (by decide)
